import Mathlib

/-! Intel-HEX record codec and region assembly (`ihex.cpp`).

A shallow embedding of the record codec (`h2b`, the two hex field readers,
`Record`, its stream operators), of `Region` and of `HexData::read_records`,
followed by theorems about them.

Conventions of the embedding.

* A C `char` is a Lean `Char`, a character stream is a `List Char` holding the
  characters that have not been extracted yet.
* Unsigned machine integers are `Nat`; every operation that can wrap in the
  source is followed by an explicit `%`.
* A C++ exception is a value of `Exn` returned through `Except`; the value is
  the exception object built by the `throw` expression.
* A formatted extraction `is >> t` into a `char` stores nothing when the
  stream is exhausted.  Where the source then goes on to use a `char` that no
  extraction has written, the language gives the run no definite result; the
  embedding returns `Exn.uninitialised` there and makes no statement about
  such runs.
-/

namespace Ihex

set_option autoImplicit false

/-! ## Hex field readers -/

/-- Value of one hex digit, `0x00` for any other character (`h2b`). -/
def h2b (h : Char) : Nat :=
  if '0' ≤ h ∧ h ≤ '9' then h.toNat - '0'.toNat
  else if 'A' ≤ h ∧ h ≤ 'F' then h.toNat - 'A'.toNat + 10
  else if 'a' ≤ h ∧ h ≤ 'f' then h.toNat - 'a'.toNat + 10
  else 0

/-- Whitespace of the classic locale, skipped by formatted extraction. -/
def isspace (c : Char) : Bool :=
  c = ' ' || c = '\t' || c = '\n' || c = '\x0b' || c = '\x0c' || c = '\r'

/-- Formatted extraction of one `char` (`is >> t` with `char t`): leading
whitespace is skipped, then one character is extracted.  `none` when the
stream is exhausted first; the stream then stays exhausted and `t` keeps
whatever it held. -/
def get_char : List Char → Option (Char × List Char)
  | [] => none
  | c :: cs => if isspace c then get_char cs else some (c, cs)

/-- Extraction of a `uint8_t` from two hex digits
(`operator >> (std::istringstream &, uint8_t &)`).  When the second
extraction fails `t` still holds the first character, which is used again;
when the first one fails `t` has never been written (`none`). -/
def read_u8 (is : List Char) : Option (Nat × List Char) :=
  match get_char is with
  | none => none
  | some (t, is1) =>
    let val := (0 + h2b t) % 256
    let val := (val * 16) % 256
    match get_char is1 with
    | none => some ((val + h2b t) % 256, [])
    | some (t2, is2) => some ((val + h2b t2) % 256, is2)

/-- Extraction of a `uint16_t` from two bytes, high byte first
(`operator >> (std::istringstream &, uint16_t &)`). -/
def read_u16 (is : List Char) : Option (Nat × List Char) :=
  match read_u8 is with
  | none => none
  | some (t, is1) =>
    let val := (0 + t) % 65536
    let val := (val * 256) % 65536
    match read_u8 is1 with
    | none => none
    | some (t2, is2) => some ((val + t2) % 65536, is2)

/-! ## Hex field writers -/

/-- One uppercase hex digit, as printed under `std::uppercase`. -/
def hex_digit (d : Nat) : Char :=
  if d < 10 then Char.ofNat ('0'.toNat + d) else Char.ofNat ('A'.toNat + (d - 10))

/-- Digits of `n` in base 16, most significant first; the first argument
bounds the number of recursive calls and is never exhausted when it is at
least `n`. -/
def hex_digits_aux : Nat → Nat → List Char
  | 0, n => [hex_digit (n % 16)]
  | fuel + 1, n =>
    if n < 16 then [hex_digit n] else hex_digits_aux fuel (n / 16) ++ [hex_digit (n % 16)]

/-- Digits printed for a non-negative integer under `setbase(16)` and
`uppercase`. -/
def hex_digits (n : Nat) : List Char := hex_digits_aux n n

/-- Output of `os << setbase(16) << uppercase << setfill('0') << setw(w) << n`:
the digits of `n`, padded on the left with `'0'` up to `w` characters and
never truncated. -/
def hex_field (w n : Nat) : List Char :=
  List.replicate (w - (hex_digits n).length) '0' ++ hex_digits n

/-! ## Records -/

/-- Exceptions of the program, plus the marker for a run that uses an
unwritten `char`. -/
inductive Exn where
  /-- `Record::checksum_exception`: transmitted checksum, calculated
  checksum, input line (`-1` until `read_records` attaches it). -/
  | checksum_exception (checksum calculated : Nat) (line : Int)
  /-- `Record::unknown_type_exception` with the offending type code. -/
  | unknown_type_exception (type : Nat)
  /-- `not_implemented(__FILE__, __LINE__)`, with the source line. -/
  | not_implemented (line : Nat)
  /-- `Region::continuous_exception`. -/
  | continuous_exception
  /-- Not an exception: the source uses a `char` that was never written. -/
  | uninitialised
  deriving DecidableEq, Repr

deriving instance DecidableEq for Except

/-- `Record::Type::DATA`. -/
def Record.DATA : Nat := 0x00
/-- `Record::Type::END_OF_FILE`. -/
def Record.END_OF_FILE : Nat := 0x01
/-- `Record::Type::EXT_SEG_ADDRESS`. -/
def Record.EXT_SEG_ADDRESS : Nat := 0x02
/-- `Record::Type::START_SEG_ADDRESS`. -/
def Record.START_SEG_ADDRESS : Nat := 0x03
/-- `Record::Type::EXT_LIN_ADDRESS`. -/
def Record.EXT_LIN_ADDRESS : Nat := 0x04
/-- `Record::Type::START_LIN_ADDRESS`. -/
def Record.START_LIN_ADDRESS : Nat := 0x05

/-- `class Record`: 16-bit offset `off`, type code `t` (an enumeration over
`uint8_t`), payload `bytes`. -/
structure Record where
  off : Nat
  t : Nat
  bytes : List Nat
  deriving DecidableEq, Repr

/-- The field types of `Record`: `uint16_t`, `uint8_t`, a vector of
`uint8_t`. -/
def Record.wf (rec : Record) : Prop :=
  rec.off < 65536 ∧ rec.t < 256 ∧ ∀ b ∈ rec.bytes, b < 256

/-- `Record::Record(Type)`. -/
def Record.of_type (type : Nat) : Record := { off := 0, t := type, bytes := [] }

/-- `Record::Record(address_type)`. -/
def Record.of_address (address : Nat) : Record :=
  { off := 0, t := Record.EXT_LIN_ADDRESS,
    bytes := [(address / 2 ^ 24) % 256, (address / 2 ^ 16) % 256] }

/-- `Record::create_data`. -/
def Record.create_data (address : Nat) : Record :=
  { Record.of_type Record.DATA with off := address % 65536 }

/-- `Record::eof`. -/
def Record.eof : Record := Record.of_type Record.END_OF_FILE

/-- `Record::size`. -/
def Record.size (rec : Record) : Nat := rec.bytes.length

/-- `Record::push_back`. -/
def Record.push_back (rec : Record) (val : Nat) : Record :=
  { rec with bytes := rec.bytes ++ [val] }

/-- `Record::address`, in 32-bit arithmetic. -/
def Record.address (rec : Record) : Nat :=
  match rec.bytes with
  | b0 :: b1 :: _ =>
    let address := (0 + b0) % 2 ^ 32
    let address := (address * 2 ^ 8) % 2 ^ 32
    let address := (address + b1) % 2 ^ 32
    (address * 2 ^ 16) % 2 ^ 32
  | _ => 0

/-- `Record::checksum`: the 8-bit sum of length, offset bytes, type and
payload, negated. -/
def Record.checksum (rec : Record) : Nat :=
  let sum := 0
  let sum := (sum + rec.bytes.length % 256) % 256
  let sum := (sum + (rec.off / 256) % 256) % 256
  let sum := (sum + rec.off % 256) % 256
  let sum := (sum + rec.t % 65536) % 256
  let sum := rec.bytes.foldl (fun sum b => (sum + b) % 256) sum
  (256 - sum) % 256

/-- The payload loop of `operator >>`: `len` bytes, each two hex digits. -/
def read_bytes : Nat → List Char → Option (List Nat × List Char)
  | 0, is => some ([], is)
  | n + 1, is =>
    match read_u8 is with
    | none => none
    | some (b, is1) =>
      match read_bytes n is1 with
      | none => none
      | some (bs, is2) => some (b :: bs, is2)

/-- First four extractions of `operator >>`: the start mark (any character,
not inspected), the length, the offset and the type code.  Gives the three
fields and the rest of the line. -/
def read_header (line : List Char) : Option (Nat × Nat × Nat × List Char) :=
  let iss := match get_char line with
    | none => []
    | some (_, iss) => iss
  match read_u8 iss with
  | none => none
  | some (len, iss) =>
    match read_u16 iss with
    | none => none
    | some (off, iss) =>
      match read_u8 iss with
      | none => none
      | some (type, iss) => some (len, off, type, iss)

/-- Body of `operator >> (std::istream &, Record &)` after `getline`: parse
one line.  Every field of the record is overwritten before a normal return,
so the result does not depend on the record passed in. -/
def decode (line : List Char) : Except Exn Record :=
  match read_header line with
  | none => .error .uninitialised
  | some (len, off, type, iss) =>
    if type = Record.END_OF_FILE ∨ type = Record.EXT_LIN_ADDRESS ∨ type = Record.DATA then
      match read_bytes len iss with
      | none => .error .uninitialised
      | some (bytes, iss) =>
        match read_u8 iss with
        | none => .error .uninitialised
        | some (checksum, _) =>
          let record : Record := { off := off, t := type, bytes := bytes }
          if checksum ≠ record.checksum then
            .error (.checksum_exception checksum record.checksum (-1))
          else .ok record
    else if type = Record.EXT_SEG_ADDRESS ∨ type = Record.START_SEG_ADDRESS
        ∨ type = Record.START_LIN_ADDRESS then
      .error (.not_implemented 270)
    else .error (.unknown_type_exception type)

/-- `std::getline`: the characters up to the first line feed, which is
extracted and dropped; the rest of the stream; whether the end of the stream
was hit (`eofbit`). -/
def getline : List Char → List Char × List Char × Bool
  | [] => ([], [], true)
  | c :: cs =>
    if c = '\n' then ([], cs, false)
    else
      let r := getline cs
      (c :: r.1, r.2.1, r.2.2)

/-- `operator >> (std::istream &, Record &)`: one line is taken off the
stream and parsed. -/
def Record.extract (is : List Char) : Except Exn Record × List Char × Bool :=
  let r := getline is
  (decode r.1, r.2.1, r.2.2)

/-- `operator << (std::ostream &, const Record &)`: the type code is printed
as a number (the enumeration promoted to `int`). -/
def encode (rec : Record) : List Char :=
  [':'] ++ hex_field 2 rec.size ++ hex_field 4 rec.off ++ hex_field 2 rec.t
    ++ (rec.bytes.map (hex_field 2)).flatten
    ++ hex_field 2 rec.checksum ++ ['\n']

/-- The line `encode` prints, without the final line feed. -/
def encode_line (rec : Record) : List Char :=
  [':'] ++ hex_field 2 rec.size ++ hex_field 4 rec.off ++ hex_field 2 rec.t
    ++ (rec.bytes.map (hex_field 2)).flatten ++ hex_field 2 rec.checksum

/-- The integer sum the checksum is taken over: length (as a byte), the two
offset bytes, the type code and the payload bytes. -/
def Record.field_sum (rec : Record) : Nat :=
  rec.bytes.length % 256 + (rec.off / 256) % 256 + rec.off % 256 + rec.t + rec.bytes.sum

/-- What is left of the line when `operator >>` reaches `iss >> checksum`:
the stream after the header and the `len` payload bytes have been
extracted. -/
def checksum_field (line : List Char) : Option (List Char) :=
  match read_header line with
  | none => none
  | some (len, _, _, iss) =>
    match read_bytes len iss with
    | none => none
    | some (_, iss) => some iss

/-! ## Regions -/

/-- `class Region`: the bytes, the base address (32 bits), the offset of the
first byte (16 bits) and the flag telling that the offset has been fixed. -/
structure Region where
  data : List Nat
  base_address : Nat
  offset : Nat
  offset_already_set : Bool
  deriving DecidableEq, Repr

/-- `Region::Region(address_type)`. -/
def Region.init (base_address : Nat) : Region :=
  { data := [], base_address := base_address, offset := 0, offset_already_set := false }

/-- `Region::address`, in 32-bit arithmetic. -/
def Region.address (r : Region) : Nat := (r.base_address + r.offset) % 2 ^ 32

/-- `Region::size`. -/
def Region.size (r : Region) : Nat := r.data.length

/-- `Region::insert`: the object after the call and the exception thrown, if
any.  Both `throw` statements come before the first assignment. -/
def Region.insert (r : Region) (value_offset value : Nat) : Region × Option Exn :=
  if r.offset_already_set then
    if value_offset < r.offset then (r, some .continuous_exception)
    else if value_offset > r.data.length + r.offset then (r, some .continuous_exception)
    else ({ r with data := r.data ++ [value] }, none)
  else
    ({ r with offset := value_offset, offset_already_set := true, data := r.data ++ [value] },
      none)

/-- Calls of `insert` one after the other, one per (offset, value) pair,
stopping at the first one that throws; the number returned counts the calls
that returned normally. -/
def Region.insert_list (r : Region) : List (Nat × Nat) → Region × Nat × Option Exn
  | [] => (r, 0, none)
  | (o, v) :: rest =>
    match r.insert o v with
    | (r1, some e) => (r1, 0, some e)
    | (r1, none) =>
      let res := Region.insert_list r1 rest
      (res.1, res.2.1 + 1, res.2.2)

/-! ## Assembly -/

/-- The lines `read_records` takes off the stream: `getline` is called until
it hits the end of the stream, so the text after the last line feed is a line
of its own, empty if nothing follows. -/
def lines : List Char → List (List Char)
  | [] => [[]]
  | c :: cs =>
    if c = '\n' then [] :: lines cs
    else
      match lines cs with
      | [] => [[c]]
      | l :: ls => (c :: l) :: ls

/-- The `for` loop of the `DATA` case: every payload byte is inserted with
the offset of the record. -/
def insert_all (region : Region) (offset : Nat) : List Nat → Except Exn Region
  | [] => .ok region
  | b :: bs =>
    match region.insert offset b with
    | (_, some e) => .error e
    | (region1, none) => insert_all region1 offset bs

/-- Local state of `read_records` between two iterations: the current
region, the regions stored in the `HexData` so far, the line counter. -/
structure Loop where
  region : Region
  data : List Region
  line : Int
  deriving DecidableEq, Repr

/-- How one iteration of the `while` loop ends. -/
inductive Step where
  /-- The next iteration starts from this state. -/
  | next (s : Loop)
  /-- The function returns; the `HexData` holds these regions. -/
  | ret (data : List Region)
  /-- An exception leaves the function. -/
  | throw (e : Exn)
  deriving DecidableEq, Repr

/-- One iteration of the `while` loop of `HexData::read_records`, on the line
that `getline` delivers. -/
def body (s : Loop) (l : List Char) : Step :=
  let line := s.line + 1
  match decode l with
  | .error (.checksum_exception checksum calculated _) =>
    .throw (.checksum_exception checksum calculated line)
  | .error e => .throw e
  | .ok rec =>
    if rec.t = Record.DATA then
      match insert_all s.region rec.off rec.bytes with
      | .error e => .throw e
      | .ok region => .next { region := region, data := s.data, line := line }
    else if rec.t = Record.END_OF_FILE then
      .ret (if s.region.size ≠ 0 then s.data ++ [s.region] else s.data)
    else if rec.t = Record.EXT_LIN_ADDRESS then
      .next { region := Region.init rec.address,
              data := if s.region.size ≠ 0 then s.data ++ [s.region] else s.data,
              line := line }
    else .next { region := s.region, data := s.data, line := line }

/-- The `while (!is.eof())` loop over the lines of the stream; when the
stream is used up the function returns without storing the current region. -/
def read_loop (s : Loop) : List (List Char) → Except Exn (List Region)
  | [] => .ok s.data
  | l :: ls =>
    match body s l with
    | .next s1 => read_loop s1 ls
    | .ret data => .ok data
    | .throw e => .error e

/-- `HexData::read_records` on a `HexData` holding the regions `hex`. -/
def read_records (hex : List Region) (is : List Char) : Except Exn (List Region) :=
  read_loop { region := Region.init 0, data := hex, line := 0 } (lines is)

/-- State after the loop has gone through all the given lines, each
iteration ending normally with neither `return` nor `throw`. -/
def run_lines (s : Loop) : List (List Char) → Option Loop
  | [] => some s
  | l :: ls =>
    match body s l with
    | .next s1 => run_lines s1 ls
    | _ => none

/-- Following the wording of the specification: the runs of Data payload
between ExtendedLinearAddress records.  `base` and `acc` are the base address
and the payload bytes of the run being read. -/
def runs (base : Nat) (acc : List Nat) : List Record → List (Nat × List Nat)
  | [] => [(base, acc)]
  | r :: rs =>
    if r.t = Record.EXT_LIN_ADDRESS then (base, acc) :: runs r.address [] rs
    else runs base (acc ++ r.bytes) rs

/-- `Region::move_base_address`: the upper half of the destination becomes
the base address, the lower half the offset; nothing else is touched. -/
def Region.move_base_address (r : Region) (destination_base_address : Nat) : Region :=
  { r with base_address := destination_base_address &&& 0xffff0000,
           offset := destination_base_address &&& 0x0000ffff }

/-- `Region::inside`.  `base_address + offset` is a 32-bit sum; subtracting
`size()` takes place in `size_t`, taken here to be 64 bits wide, and wraps
below zero. -/
def Region.inside (r : Region) (address : Nat) : Bool :=
  decide (address ≥ (r.base_address + r.offset) % 2 ^ 32)
    && decide (address < ((r.base_address + r.offset) % 2 ^ 32 + 2 ^ 64 - r.size % 2 ^ 64) % 2 ^ 64)

/-! ## Manipulation of the image -/

/-- `HexData::find`: position of the first region whose `address()` is the
given one; the number of regions stands for `end()`. -/
def HexData.find : List Region → Nat → Nat
  | [], _ => 0
  | r :: rs, address => if r.address = address then 0 else HexData.find rs address + 1

/-- `HexData::erase` at an iterator position. -/
def HexData.erase (data : List Region) (i : Nat) : List Region := data.eraseIdx i

/-- The image with `f` applied to the region at position `i` (a member call
through the iterator). -/
def HexData.at_iterator (f : Region → Region) : List Region → Nat → List Region
  | [], _ => []
  | r :: rs, 0 => f r :: rs
  | r :: rs, i + 1 => r :: HexData.at_iterator f rs i

/-- The two warnings of the manipulation loops in `main`. -/
inductive Warning where
  /-- "base address ... not found". -/
  | not_found
  /-- "destination base address ... already exists". -/
  | already_exists
  deriving DecidableEq, Repr

/-- Body of the erase loop of `main` for one address: the image afterwards
and the warning printed, if any. -/
def erase_region (hex : List Region) (address : Nat) : List Region × Option Warning :=
  let region := HexData.find hex address
  if region = hex.length then (hex, some .not_found)
  else (HexData.erase hex region, none)

/-- Body of the move loop of `main` for one pair of addresses: the image
afterwards and the warning printed, if any. -/
def move_region (hex : List Region) (first second : Nat) : List Region × Option Warning :=
  let region := HexData.find hex first
  if region = hex.length then (hex, some .not_found)
  else if HexData.find hex second ≠ hex.length then (hex, some .already_exists)
  else (HexData.at_iterator (fun r => r.move_base_address second) hex region, none)

/-! ## Export as Intel-HEX -/

/-- `enum class State` of `Region::dump_ihex`. -/
inductive DumpState where
  | NEW_RECORD
  | DATA
  deriving DecidableEq, Repr

/-- Local variables of `Region::dump_ihex`: the running address, the state,
the record being filled, the bytes from the iterator `i` to the end of the
data, and the records written to `os` so far (each one by `operator <<`). -/
structure Dump where
  address : Nat
  state : DumpState
  record : Record
  i : List Nat
  os : List Record
  deriving DecidableEq, Repr

/-- One iteration of the `for` loop of `Region::dump_ihex`; the loop runs it
only while `i` has not reached the end. -/
def Region.dump_step (r : Region) (width : Nat) (s : Dump) : Dump :=
  match s.i with
  | [] => s
  | b :: rest =>
    match s.state with
    | .NEW_RECORD =>
      { s with record := Record.create_data ((s.address + r.offset) % 2 ^ 32), state := .DATA }
    | .DATA =>
      if s.record.size ≥ width then
        { s with os := s.os ++ [s.record], state := .NEW_RECORD }
      else
        let record := s.record.push_back b
        { address := (s.address + 1) % 2 ^ 32, state := .DATA, record := record, i := rest,
          os := if rest = [] then s.os ++ [record] else s.os }

/-- The `for` loop of `Region::dump_ihex`, run for at most `fuel`
iterations: the records written when the loop ends, `none` when it has
not ended by then. -/
def Region.dump_loop (r : Region) (width : Nat) : Nat → Dump → Option (List Record)
  | 0, s => if s.i = [] then some s.os else none
  | fuel + 1, s =>
    if s.i = [] then some s.os else Region.dump_loop r width fuel (Region.dump_step r width s)

/-- `Region::dump_ihex`, as the list of records it writes: first the
ExtendedLinearAddress record of the base address, then what the loop
writes. -/
def Region.dump_records (r : Region) (width fuel : Nat) : Option (List Record) :=
  Region.dump_loop r width fuel
    { address := r.base_address, state := .NEW_RECORD, record := Record.of_type Record.END_OF_FILE,
      i := r.data, os := [Record.of_address r.base_address] }

/-- Text written for a list of records, one `operator <<` each. -/
def write_records (recs : List Record) : List Char := (recs.map encode).flatten

/-- `Region::dump_ihex`, as text. -/
def Region.dump_ihex (r : Region) (width fuel : Nat) : Option (List Char) :=
  (r.dump_records width fuel).map write_records

/-- `HexData::dump_ihex`, as the list of records it writes: every region in
turn, then the EndOfFile record. -/
def HexData.dump_records (width fuel : Nat) : List Region → Option (List Record)
  | [] => some [Record.eof]
  | r :: rs =>
    match r.dump_records width fuel with
    | none => none
    | some recs =>
      match HexData.dump_records width fuel rs with
      | none => none
      | some more => some (recs ++ more)

/-- `HexData::dump_ihex`, as text. -/
def HexData.dump_ihex (hex : List Region) (width fuel : Nat) : Option (List Char) :=
  (HexData.dump_records width fuel hex).map write_records

/-- Following the wording of the specification: the Data records of a hex
dump of width `w` for `data` whose first byte has running address `start`;
record `k` carries `data[k*w .. min((k+1)*w, n))` and the low 16 bits of the
address of its first byte, and there are `ceil(n / w)` records. -/
def chunk_records (w start : Nat) (data : List Nat) : List Record :=
  (List.range ((data.length + w - 1) / w)).map
    (fun k => { off := (start + k * w) % 65536, t := Record.DATA,
                bytes := (data.drop (k * w)).take w })

/-- The records `Region::dump_ihex` is specified to write for a region: the
ExtendedLinearAddress record of the base address and the Data records of the
chunks. -/
def region_records (w : Nat) (r : Region) : List Record :=
  Record.of_address r.base_address :: chunk_records w (r.base_address + r.offset) r.data

/-! # Theorems -/

/-! ## Checksum -/

theorem foldl_add_mod (l : List Nat) (s : Nat) (hs : s < 256) :
    l.foldl (fun sum b => (sum + b) % 256) s = (s + l.sum) % 256 := by
  induction l generalizing s with
  | nil => simp [Nat.mod_eq_of_lt hs]
  | cons b bs ih =>
    simp only [List.foldl_cons, List.sum_cons]
    rw [ih _ (Nat.mod_lt _ (by norm_num))]
    omega

theorem checksum_eq_sub (rec : Record) :
    rec.checksum = (256 - rec.field_sum % 256) % 256 := by
  unfold Record.checksum Record.field_sum
  simp only []
  rw [foldl_add_mod _ _ (Nat.mod_lt _ (by norm_num))]
  omega

theorem checksum_lt (rec : Record) : rec.checksum < 256 := by
  rw [checksum_eq_sub]
  omega

/-- C2: `checksum()` is the negated sum of length, offset high byte, offset
low byte, type code and payload bytes, modulo 256; adding the checksum to
that sum gives a multiple of 256. -/
theorem checksum_spec (rec : Record) :
    (rec.checksum : Int) = (-(rec.field_sum : Int)) % 256
      ∧ (rec.field_sum + rec.checksum) % 256 = 0
      ∧ rec.checksum < 256 := by
  rw [checksum_eq_sub]
  refine ⟨?_, ?_, ?_⟩ <;> omega


/-! ## Round trip -/

theorem hex_digit_props : ∀ d, d < 16 →
    isspace (hex_digit d) = false ∧ hex_digit d ≠ '\n' ∧ h2b (hex_digit d) = d := by
  decide

theorem hex_digits_aux_lt (fuel n : Nat) (h : n < 16) :
    hex_digits_aux fuel n = [hex_digit n] := by
  cases fuel with
  | zero => simp [hex_digits_aux, Nat.mod_eq_of_lt h]
  | succ f => simp [hex_digits_aux, h]

theorem hex_digits_aux_ge (fuel n : Nat) (h : 16 ≤ n) :
    hex_digits_aux (fuel + 1) n = hex_digits_aux fuel (n / 16) ++ [hex_digit (n % 16)] := by
  simp [hex_digits_aux, Nat.not_lt.mpr h]

theorem hex_field_two (n : Nat) (h : n < 256) :
    hex_field 2 n = [hex_digit (n / 16), hex_digit (n % 16)] := by
  unfold hex_field hex_digits
  by_cases h16 : n < 16
  · rw [hex_digits_aux_lt _ _ h16]
    have h0 : n / 16 = 0 := by omega
    have h1 : n % 16 = n := by omega
    rw [h0, h1]
    rfl
  · obtain ⟨m, rfl⟩ : ∃ m, n = m + 1 := ⟨n - 1, by omega⟩
    rw [hex_digits_aux_ge _ _ (by omega), hex_digits_aux_lt _ _ (by omega)]
    rfl

theorem hex_field_four (n : Nat) (h : n < 65536) :
    hex_field 4 n = [hex_digit (n / 4096), hex_digit (n / 256 % 16),
      hex_digit (n / 16 % 16), hex_digit (n % 16)] := by
  unfold hex_field hex_digits
  by_cases h16 : n < 16
  · rw [hex_digits_aux_lt _ _ h16]
    have h0 : n / 4096 = 0 := by omega
    have h1 : n / 256 % 16 = 0 := by omega
    have h2 : n / 16 % 16 = 0 := by omega
    have h3 : n % 16 = n := by omega
    rw [h0, h1, h2, h3]
    rfl
  · obtain ⟨m, rfl⟩ : ∃ m, n = m + 1 := ⟨n - 1, by omega⟩
    rw [hex_digits_aux_ge _ _ (by omega)]
    by_cases h256 : (m + 1) / 16 < 16
    · rw [hex_digits_aux_lt _ _ h256]
      have h0 : (m + 1) / 4096 = 0 := by omega
      have h1 : (m + 1) / 256 % 16 = 0 := by omega
      have h2 : (m + 1) / 16 % 16 = (m + 1) / 16 := by omega
      rw [h0, h1, h2]
      rfl
    · obtain ⟨k, rfl⟩ : ∃ k, m = k + 1 := ⟨m - 1, by omega⟩
      rw [hex_digits_aux_ge _ _ (by omega)]
      by_cases h4096 : (k + 1 + 1) / 16 / 16 < 16
      · rw [hex_digits_aux_lt _ _ h4096]
        have h0 : (k + 1 + 1) / 4096 = 0 := by omega
        have h1 : (k + 1 + 1) / 256 % 16 = (k + 1 + 1) / 16 / 16 := by omega
        rw [h0, h1]
        rfl
      · obtain ⟨j, rfl⟩ : ∃ j, k = j + 1 := ⟨k - 1, by omega⟩
        rw [hex_digits_aux_ge _ _ (by omega), hex_digits_aux_lt _ _ (by omega)]
        have h0 : (j + 1 + 1 + 1) / 4096 = (j + 1 + 1 + 1) / 16 / 16 / 16 := by omega
        have h1 : (j + 1 + 1 + 1) / 256 % 16 = (j + 1 + 1 + 1) / 16 / 16 % 16 := by omega
        rw [h0, h1]
        rfl

theorem get_char_hex_digit (d : Nat) (h : d < 16) (is : List Char) :
    get_char (hex_digit d :: is) = some (hex_digit d, is) := by
  simp [get_char, (hex_digit_props d h).1]

theorem read_u8_hex (a b : Nat) (ha : a < 16) (hb : b < 16) (is : List Char) :
    read_u8 (hex_digit a :: hex_digit b :: is) = some (a * 16 + b, is) := by
  simp only [read_u8, get_char_hex_digit a ha, get_char_hex_digit b hb,
    (hex_digit_props a ha).2.2, (hex_digit_props b hb).2.2]
  congr 2
  omega

theorem read_u8_hex_field (n : Nat) (h : n < 256) (is : List Char) :
    read_u8 (hex_field 2 n ++ is) = some (n, is) := by
  rw [hex_field_two n h]
  simp only [List.cons_append, List.nil_append]
  rw [read_u8_hex _ _ (by omega) (by omega)]
  congr 2
  omega

theorem read_u16_hex_field (n : Nat) (h : n < 65536) (is : List Char) :
    read_u16 (hex_field 4 n ++ is) = some (n, is) := by
  rw [hex_field_four n h]
  simp only [List.cons_append, List.nil_append, read_u16]
  rw [read_u8_hex _ _ (by omega) (by omega)]
  simp only []
  rw [read_u8_hex _ _ (by omega) (by omega)]
  simp only []
  congr 2
  omega

theorem read_bytes_hex (bytes : List Nat) (hb : ∀ b ∈ bytes, b < 256) (is : List Char) :
    read_bytes bytes.length ((bytes.map (hex_field 2)).flatten ++ is) = some (bytes, is) := by
  induction bytes with
  | nil => simp [read_bytes]
  | cons b bs ih =>
    simp only [List.length_cons, List.map_cons, List.flatten_cons, List.append_assoc, read_bytes]
    rw [read_u8_hex_field b (hb b (by simp))]
    simp only []
    rw [ih (fun x hx => hb x (by simp [hx]))]

theorem getline_cons (c : Char) (cs : List Char) :
    getline (c :: cs) = if c = '\n' then ([], cs, false)
      else (c :: (getline cs).1, (getline cs).2.1, (getline cs).2.2) := rfl

theorem get_char_cons (c : Char) (cs : List Char) :
    get_char (c :: cs) = if isspace c then get_char cs else some (c, cs) := rfl

theorem getline_append (l rest : List Char) (h : ∀ c ∈ l, c ≠ '\n') :
    getline (l ++ '\n' :: rest) = (l, rest, false) := by
  induction l with
  | nil => simp [getline]
  | cons c cs ih =>
    have hc : c ≠ '\n' := h c (by simp)
    rw [List.cons_append, getline_cons, if_neg hc, ih (fun x hx => h x (by simp [hx]))]

theorem hex_field_two_no_lf (n : Nat) (h : n < 256) : ∀ c ∈ hex_field 2 n, c ≠ '\n' := by
  rw [hex_field_two n h]
  intro c hc
  simp only [List.mem_cons, List.mem_singleton, List.not_mem_nil, or_false] at hc
  rcases hc with rfl | rfl
  · exact (hex_digit_props _ (by omega)).2.1
  · exact (hex_digit_props _ (by omega)).2.1

theorem hex_field_four_no_lf (n : Nat) (h : n < 65536) : ∀ c ∈ hex_field 4 n, c ≠ '\n' := by
  rw [hex_field_four n h]
  intro c hc
  simp only [List.mem_cons, List.mem_singleton, List.not_mem_nil, or_false] at hc
  rcases hc with rfl | rfl | rfl | rfl
  all_goals exact (hex_digit_props _ (by omega)).2.1

theorem encode_eq (rec : Record) : encode rec = encode_line rec ++ ['\n'] := rfl

theorem decode_encode_line (rec : Record)
    (hk : rec.t = Record.DATA ∨ rec.t = Record.END_OF_FILE ∨ rec.t = Record.EXT_LIN_ADDRESS)
    (ho : rec.off < 65536) (hb : ∀ b ∈ rec.bytes, b < 256) (hl : rec.bytes.length ≤ 255) :
    decode (encode_line rec) = .ok rec := by
  have hcs : rec.checksum < 256 := checksum_lt rec
  have ht : rec.t < 256 := by
    rcases hk with h | h | h <;> rw [h] <;> decide
  have hhead : read_header (encode_line rec)
      = some (rec.bytes.length, rec.off, rec.t,
          (rec.bytes.map (hex_field 2)).flatten ++ hex_field 2 rec.checksum) := by
    have e : encode_line rec = ':' :: (hex_field 2 rec.bytes.length ++ (hex_field 4 rec.off
        ++ (hex_field 2 rec.t ++ ((rec.bytes.map (hex_field 2)).flatten
        ++ hex_field 2 rec.checksum)))) := by
      simp [encode_line, Record.size]
    have hc : isspace ':' = false := by decide
    rw [e, read_header, get_char_cons, hc]
    simp only [Bool.false_eq_true, if_false]
    rw [read_u8_hex_field _ (by omega)]
    simp only []
    rw [read_u16_hex_field _ ho]
    simp only []
    rw [read_u8_hex_field _ ht]
  unfold decode
  rw [hhead]
  simp only []
  have hk2 : rec.t = Record.END_OF_FILE ∨ rec.t = Record.EXT_LIN_ADDRESS ∨ rec.t = Record.DATA := by
    tauto
  rw [if_pos hk2, read_bytes_hex _ hb]
  simp only []
  have := read_u8_hex_field rec.checksum hcs []
  rw [List.append_nil] at this
  rw [this]
  simp


theorem encode_line_no_lf (rec : Record) (ht : rec.t < 256)
    (ho : rec.off < 65536) (hb : ∀ b ∈ rec.bytes, b < 256) (hl : rec.bytes.length ≤ 255) :
    ∀ c ∈ encode_line rec, c ≠ '\n' := by
  have hcs : rec.checksum < 256 := checksum_lt rec
  intro c hc
  simp only [encode_line, Record.size, List.mem_append, List.mem_singleton, List.mem_flatten,
    List.mem_map] at hc
  rcases hc with ((((rfl | h) | h) | h) | ⟨l, ⟨b, hbm, rfl⟩, h⟩) | h
  · decide
  · exact hex_field_two_no_lf _ (by omega) c h
  · exact hex_field_four_no_lf _ ho c h
  · exact hex_field_two_no_lf _ ht c h
  · exact hex_field_two_no_lf _ (hb b hbm) c h
  · exact hex_field_two_no_lf _ hcs c h

/-- C1: round trip.  For a record of kind Data, EndOfFile or
ExtendedLinearAddress with a 16-bit offset and at most 255 payload bytes,
reading a record from the text written by `encode` (followed by any further
input) succeeds, returns the record itself and leaves the further input. -/
theorem decode_encode (rec : Record) (rest : List Char)
    (hk : rec.t = Record.DATA ∨ rec.t = Record.END_OF_FILE ∨ rec.t = Record.EXT_LIN_ADDRESS)
    (ho : rec.off < 65536) (hb : ∀ b ∈ rec.bytes, b < 256) (hl : rec.bytes.length ≤ 255) :
    Record.extract (encode rec ++ rest) = (.ok rec, rest, false) := by
  have ht : rec.t < 256 := by
    rcases hk with h | h | h <;> rw [h] <;> decide
  unfold Record.extract
  rw [encode_eq, List.append_assoc, List.singleton_append,
    getline_append _ _ (encode_line_no_lf rec ht ho hb hl)]
  simp only []
  rw [decode_encode_line rec hk ho hb hl]

theorem decode_encode_witness :
    Record.extract (encode ⟨0x1234, Record.DATA, [1, 2, 255, 0xAB]⟩ ++ [])
      = (.ok ⟨0x1234, Record.DATA, [1, 2, 255, 0xAB]⟩, [], false) :=
  decode_encode ⟨0x1234, Record.DATA, [1, 2, 255, 0xAB]⟩ [] (by decide) (by decide)
    (by decide) (by decide)
/-! ## Extraction depends only on the characters extracted -/

theorem get_char_split (s r : List Char) (c : Char) (h : get_char s = some (c, r)) :
    ∃ p, s = p ++ r ∧ ∀ x, get_char (p ++ x) = some (c, x) := by
  induction s with
  | nil => simp [get_char] at h
  | cons a as ih =>
    rw [get_char_cons] at h
    by_cases ha : isspace a = true
    · rw [if_pos ha] at h
      obtain ⟨p, hp, hx⟩ := ih h
      refine ⟨a :: p, by rw [hp]; rfl, fun x => ?_⟩
      rw [List.cons_append, get_char_cons, if_pos ha]
      exact hx x
    · rw [if_neg ha] at h
      simp only [Option.some.injEq, Prod.mk.injEq] at h
      obtain ⟨rfl, rfl⟩ := h
      refine ⟨[a], rfl, fun x => ?_⟩
      rw [List.singleton_append, get_char_cons, if_neg ha]

theorem read_u8_split (s r : List Char) (v : Nat) (h : read_u8 s = some (v, r)) (hr : r ≠ []) :
    ∃ p, s = p ++ r ∧ ∀ x, read_u8 (p ++ x) = some (v, x) := by
  unfold read_u8 at h
  cases h1 : get_char s with
  | none => rw [h1] at h; simp at h
  | some a =>
    obtain ⟨t, s1⟩ := a
    rw [h1] at h
    simp only [] at h
    cases h2 : get_char s1 with
    | none =>
      rw [h2] at h
      simp only [Option.some.injEq, Prod.mk.injEq] at h
      exact absurd h.2.symm hr
    | some b =>
      obtain ⟨t2, s2⟩ := b
      rw [h2] at h
      simp only [Option.some.injEq, Prod.mk.injEq] at h
      obtain ⟨hv, rfl⟩ := h
      obtain ⟨p1, hp1, hx1⟩ := get_char_split _ _ _ h1
      obtain ⟨p2, hp2, hx2⟩ := get_char_split _ _ _ h2
      refine ⟨p1 ++ p2, by rw [hp1, hp2, List.append_assoc], fun x => ?_⟩
      unfold read_u8
      rw [List.append_assoc, hx1]
      simp only []
      rw [hx2]
      simp only []
      rw [hv]

theorem read_u16_split (s r : List Char) (v : Nat) (h : read_u16 s = some (v, r)) (hr : r ≠ []) :
    ∃ p, s = p ++ r ∧ ∀ x, read_u16 (p ++ x) = some (v, x) := by
  unfold read_u16 at h
  cases h1 : read_u8 s with
  | none => rw [h1] at h; simp at h
  | some a =>
    obtain ⟨t, s1⟩ := a
    rw [h1] at h
    simp only [] at h
    cases h2 : read_u8 s1 with
    | none => rw [h2] at h; simp at h
    | some b =>
      obtain ⟨t2, s2⟩ := b
      rw [h2] at h
      simp only [Option.some.injEq, Prod.mk.injEq] at h
      obtain ⟨hv, rfl⟩ := h
      obtain ⟨p2, hp2, hx2⟩ := read_u8_split _ _ _ h2 hr
      have hs1 : s1 ≠ [] := by
        rw [hp2]
        intro hnil
        exact hr (List.append_eq_nil.mp hnil).2
      obtain ⟨p1, hp1, hx1⟩ := read_u8_split _ _ _ h1 hs1
      refine ⟨p1 ++ p2, by rw [hp1, hp2, List.append_assoc], fun x => ?_⟩
      unfold read_u16
      rw [List.append_assoc, hx1]
      simp only []
      rw [hx2]
      simp only []
      rw [hv]

theorem read_bytes_split (n : Nat) (s r : List Char) (bs : List Nat)
    (h : read_bytes n s = some (bs, r)) (hr : r ≠ []) :
    ∃ p, s = p ++ r ∧ ∀ x, read_bytes n (p ++ x) = some (bs, x) := by
  induction n generalizing s bs with
  | zero =>
    simp only [read_bytes, Option.some.injEq, Prod.mk.injEq] at h
    obtain ⟨rfl, rfl⟩ := h
    exact ⟨[], rfl, fun x => rfl⟩
  | succ n ih =>
    unfold read_bytes at h
    cases h1 : read_u8 s with
    | none => rw [h1] at h; simp at h
    | some a =>
      obtain ⟨b, s1⟩ := a
      rw [h1] at h
      simp only [] at h
      cases h2 : read_bytes n s1 with
      | none => rw [h2] at h; simp at h
      | some q =>
        obtain ⟨bs1, s2⟩ := q
        rw [h2] at h
        simp only [Option.some.injEq, Prod.mk.injEq] at h
        obtain ⟨hv, rfl⟩ := h
        obtain ⟨p2, hp2, hx2⟩ := ih _ _ h2
        have hs1 : s1 ≠ [] := by
          rw [hp2]
          intro hnil
          exact hr (List.append_eq_nil.mp hnil).2
        obtain ⟨p1, hp1, hx1⟩ := read_u8_split _ _ _ h1 hs1
        refine ⟨p1 ++ p2, by rw [hp1, hp2, List.append_assoc], fun x => ?_⟩
        unfold read_bytes
        rw [List.append_assoc, hx1]
        simp only []
        rw [hx2]
        simp only []
        rw [hv]

theorem read_header_split (line r : List Char) (len off type : Nat)
    (h : read_header line = some (len, off, type, r)) (hr : r ≠ []) :
    ∃ p, line = p ++ r ∧ ∀ x, read_header (p ++ x) = some (len, off, type, x) := by
  unfold read_header at h
  cases h0 : get_char line with
  | none => rw [h0] at h; simp [read_u8, get_char] at h
  | some a =>
    obtain ⟨m, s0⟩ := a
    rw [h0] at h
    simp only [] at h
    cases h1 : read_u8 s0 with
    | none => rw [h1] at h; simp at h
    | some a1 =>
      obtain ⟨len1, s1⟩ := a1
      rw [h1] at h
      simp only [] at h
      cases h2 : read_u16 s1 with
      | none => rw [h2] at h; simp at h
      | some a2 =>
        obtain ⟨off1, s2⟩ := a2
        rw [h2] at h
        simp only [] at h
        cases h3 : read_u8 s2 with
        | none => rw [h3] at h; simp at h
        | some a3 =>
          obtain ⟨type1, s3⟩ := a3
          rw [h3] at h
          simp only [Option.some.injEq, Prod.mk.injEq] at h
          obtain ⟨rfl, rfl, rfl, rfl⟩ := h
          obtain ⟨p3, hp3, hx3⟩ := read_u8_split _ _ _ h3 hr
          have hs2 : s2 ≠ [] := by
            rw [hp3]
            intro hnil
            exact hr (List.append_eq_nil.mp hnil).2
          obtain ⟨p2, hp2, hx2⟩ := read_u16_split _ _ _ h2 hs2
          have hs1 : s1 ≠ [] := by
            rw [hp2]
            intro hnil
            exact hs2 (List.append_eq_nil.mp hnil).2
          obtain ⟨p1, hp1, hx1⟩ := read_u8_split _ _ _ h1 hs1
          obtain ⟨p0, hp0, hx0⟩ := get_char_split _ _ _ h0
          refine ⟨p0 ++ (p1 ++ (p2 ++ p3)), ?_, fun x => ?_⟩
          · rw [hp0, hp1, hp2, hp3]
            simp only [List.append_assoc]
          · unfold read_header
            simp only [List.append_assoc]
            rw [hx0]
            simp only []
            rw [hx1]
            simp only []
            rw [hx2]
            simp only []
            rw [hx3]
/-! ## Checksum sensitivity -/

theorem xor_bit_byte (c k : Nat) (hc : c < 256) (hk : k < 8) :
    c ^^^ 2 ^ k < 256 ∧ c ^^^ 2 ^ k ≠ c := by
  constructor
  · have h2 : 2 ^ k < 2 ^ 8 := Nat.pow_lt_pow_right (by norm_num) hk
    have hc8 : c < 2 ^ 8 := hc
    have hx : c ^^^ 2 ^ k < 2 ^ 8 := Nat.xor_lt_two_pow hc8 h2
    exact hx
  · intro h
    have h0 : c ^^^ 2 ^ k = c ^^^ 0 := by rw [h, Nat.xor_zero]
    have := Nat.xor_right_injective h0
    have hpos : 0 < 2 ^ k := Nat.pos_pow_of_pos k (by norm_num)
    omega

theorem read_u8_nil : read_u8 [] = none := rfl

/-- C3: checksum sensitivity.  An accepted line splits into the part
extracted before the checksum field and the field itself, which transmits the
record's checksum; putting in its place the two hex digits of that byte with
any single bit flipped makes `decode` throw `checksum_exception` carrying the
flipped byte as transmitted and the recomputed checksum as calculated. -/
theorem checksum_bit_flip (line : List Char) (rec : Record) (h : decode line = .ok rec) :
    ∃ pre field, line = pre ++ field ∧ checksum_field line = some field
      ∧ (∃ tl, read_u8 field = some (rec.checksum, tl))
      ∧ ∀ k, k < 8 → ∀ tail,
          decode (pre ++ hex_field 2 (rec.checksum ^^^ 2 ^ k) ++ tail)
            = .error (.checksum_exception (rec.checksum ^^^ 2 ^ k) rec.checksum (-1)) := by
  unfold decode at h
  cases hh : read_header line with
  | none => rw [hh] at h; simp at h
  | some a =>
    obtain ⟨len, off, type, iss⟩ := a
    rw [hh] at h
    simp only [] at h
    by_cases hty : type = Record.END_OF_FILE ∨ type = Record.EXT_LIN_ADDRESS ∨ type = Record.DATA
    · rw [if_pos hty] at h
      cases hb : read_bytes len iss with
      | none => rw [hb] at h; simp at h
      | some q =>
        obtain ⟨bytes, iss2⟩ := q
        rw [hb] at h
        simp only [] at h
        cases hc : read_u8 iss2 with
        | none => rw [hc] at h; simp at h
        | some w =>
          obtain ⟨cs, tl⟩ := w
          rw [hc] at h
          simp only [] at h
          by_cases hne : cs ≠ Record.checksum { off := off, t := type, bytes := bytes }
          · rw [if_pos hne] at h; simp at h
          · rw [if_neg hne] at h
            simp only [Except.ok.injEq] at h
            have hcs : cs = rec.checksum := by rw [← h]; exact not_not.mp hne
            have hiss2 : iss2 ≠ [] := by
              intro hnil
              rw [hnil, read_u8_nil] at hc
              simp at hc
            obtain ⟨p2, hp2, hx2⟩ := read_bytes_split _ _ _ _ hb hiss2
            have hiss : iss ≠ [] := by
              rw [hp2]
              intro hnil
              exact hiss2 (List.append_eq_nil.mp hnil).2
            obtain ⟨p1, hp1, hx1⟩ := read_header_split _ _ _ _ _ hh hiss
            refine ⟨p1 ++ p2, iss2, by rw [hp1, hp2, List.append_assoc], ?_, ⟨tl, by rw [hc, hcs]⟩, ?_⟩
            · unfold checksum_field
              rw [hh]
              simp only []
              rw [hb]
            · intro k hk tail
              obtain ⟨hlt, hneq⟩ := xor_bit_byte rec.checksum k (checksum_lt rec) hk
              unfold decode
              rw [List.append_assoc, List.append_assoc, hx1]
              simp only []
              rw [if_pos hty, hx2]
              simp only []
              rw [read_u8_hex_field _ hlt]
              simp only []
              rw [h, if_pos hneq]
    · rw [if_neg hty] at h
      split at h <;> simp at h

theorem checksum_bit_flip_witness :
    ∃ pre field, ":00000001FF".toList = pre ++ field
      ∧ checksum_field ":00000001FF".toList = some field
      ∧ (∃ tl, read_u8 field = some (Record.eof.checksum, tl))
      ∧ ∀ k, k < 8 → ∀ tail,
          decode (pre ++ hex_field 2 (Record.eof.checksum ^^^ 2 ^ k) ++ tail)
            = .error (.checksum_exception (Record.eof.checksum ^^^ 2 ^ k)
                Record.eof.checksum (-1)) :=
  checksum_bit_flip ":00000001FF".toList Record.eof (by decide)
/-! ## Record types that are refused -/

theorem decode_of_header (line iss : List Char) (len off type : Nat)
    (h : read_header line = some (len, off, type, iss)) :
    decode line =
      if type = Record.END_OF_FILE ∨ type = Record.EXT_LIN_ADDRESS ∨ type = Record.DATA then
        match read_bytes len iss with
        | none => .error .uninitialised
        | some (bytes, iss) =>
          match read_u8 iss with
          | none => .error .uninitialised
          | some (checksum, _) =>
            if checksum ≠ Record.checksum { off := off, t := type, bytes := bytes } then
              .error (.checksum_exception checksum
                (Record.checksum { off := off, t := type, bytes := bytes }) (-1))
            else .ok { off := off, t := type, bytes := bytes }
      else if type = Record.EXT_SEG_ADDRESS ∨ type = Record.START_SEG_ADDRESS
          ∨ type = Record.START_LIN_ADDRESS then
        .error (.not_implemented 270)
      else .error (.unknown_type_exception type) := by
  unfold decode
  rw [h]

/-- C4: for a line whose header is read, `decode` throws `not_implemented`
exactly when the type code is 0x02, 0x03 or 0x05 and throws
`unknown_type_exception` (carrying the code) exactly when the code is above
0x05; in both cases the result is fixed by the type code alone, and it is
neither a record nor a `checksum_exception`. -/
theorem decode_refused_types (line iss : List Char) (len off type : Nat)
    (h : read_header line = some (len, off, type, iss)) :
    (∀ n, decode line = .error (.not_implemented n)
        ↔ n = 270 ∧ (type = 0x02 ∨ type = 0x03 ∨ type = 0x05))
      ∧ (∀ t, decode line = .error (.unknown_type_exception t) ↔ t = type ∧ 0x05 < type)
      ∧ (type = 0x02 ∨ type = 0x03 ∨ type = 0x05 ∨ 0x05 < type →
          (∀ r, decode line ≠ .ok r)
            ∧ ∀ c k l, decode line ≠ .error (.checksum_exception c k l)) := by
  rw [decode_of_header line iss len off type h]
  simp only [Record.END_OF_FILE, Record.EXT_LIN_ADDRESS, Record.DATA, Record.EXT_SEG_ADDRESS,
    Record.START_SEG_ADDRESS, Record.START_LIN_ADDRESS]
  by_cases h1 : type = 1 ∨ type = 4 ∨ type = 0
  · rw [if_pos h1]
    refine ⟨fun n => ⟨fun hd => ?_, fun hd => by omega⟩,
      fun t => ⟨fun hd => ?_, fun hd => by omega⟩, fun hd => by omega⟩
    · exfalso
      split at hd
      · simp at hd
      · split at hd
        · simp at hd
        · split at hd <;> simp at hd
    · exfalso
      split at hd
      · simp at hd
      · split at hd
        · simp at hd
        · split at hd <;> simp at hd
  · rw [if_neg h1]
    by_cases h2 : type = 2 ∨ type = 3 ∨ type = 5
    · rw [if_pos h2]
      refine ⟨fun n => ?_, fun t => ?_, fun _ => ⟨fun r => by simp, fun c k l => by simp⟩⟩
      · simp only [Except.error.injEq, Exn.not_implemented.injEq]
        constructor
        · intro hn; exact ⟨hn.symm, h2⟩
        · intro hn; exact hn.1.symm
      · simp only [Except.error.injEq, reduceCtorEq, false_iff]
        omega
    · rw [if_neg h2]
      refine ⟨fun n => ?_, fun t => ?_, fun _ => ⟨fun r => by simp, fun c k l => by simp⟩⟩
      · simp only [Except.error.injEq, reduceCtorEq, false_iff]
        omega
      · simp only [Except.error.injEq, Exn.unknown_type_exception.injEq]
        constructor
        · intro ht; exact ⟨ht.symm, by omega⟩
        · intro ht; exact ht.1.symm

theorem decode_refused_types_witness :
    (∀ n, decode ":020000021000EC".toList = .error (.not_implemented n)
        ↔ n = 270 ∧ (2 = 0x02 ∨ 2 = 0x03 ∨ 2 = 0x05))
      ∧ (∀ t, decode ":020000021000EC".toList = .error (.unknown_type_exception t)
          ↔ t = 2 ∧ 0x05 < 2)
      ∧ (2 = 0x02 ∨ 2 = 0x03 ∨ 2 = 0x05 ∨ 0x05 < 2 →
          (∀ r, decode ":020000021000EC".toList ≠ .ok r)
            ∧ ∀ c k l, decode ":020000021000EC".toList ≠ .error (.checksum_exception c k l)) :=
  decode_refused_types ":020000021000EC".toList "1000EC".toList 2 0 2 (by decide)
/-! ## Assembly: regions and runs -/

theorem insert_ok_data (r r1 : Region) (o v : Nat) (h : r.insert o v = (r1, none)) :
    r1.data = r.data ++ [v] ∧ r1.base_address = r.base_address := by
  unfold Region.insert at h
  split at h
  · split at h
    · simp at h
    · split at h
      · simp at h
      · simp only [Prod.mk.injEq, and_true] at h
        rw [← h]
        exact ⟨rfl, rfl⟩
  · simp only [Prod.mk.injEq, and_true] at h
    rw [← h]
    exact ⟨rfl, rfl⟩

theorem insert_all_ok_data (bytes : List Nat) (region region1 : Region) (o : Nat)
    (h : insert_all region o bytes = .ok region1) :
    region1.data = region.data ++ bytes ∧ region1.base_address = region.base_address := by
  induction bytes generalizing region with
  | nil =>
    simp only [insert_all, Except.ok.injEq] at h
    rw [← h]
    simp
  | cons b bs ih =>
    unfold insert_all at h
    cases hi : region.insert o b with
    | mk r1 e =>
      rw [hi] at h
      cases e with
      | some e => simp at h
      | none =>
        simp only [] at h
        obtain ⟨hd, hb⟩ := insert_ok_data _ _ _ _ hi
        obtain ⟨hd2, hb2⟩ := ih _ h
        rw [hd2, hb2, hd, hb]
        simp

theorem read_loop_cons (s : Loop) (l : List Char) (ls : List (List Char)) :
    read_loop s (l :: ls) =
      match body s l with
      | .next s1 => read_loop s1 ls
      | .ret data => .ok data
      | .throw e => .error e := rfl

theorem body_of_ok (s : Loop) (l : List Char) (rec : Record) (h : decode l = .ok rec) :
    body s l =
      if rec.t = Record.DATA then
        match insert_all s.region rec.off rec.bytes with
        | .error e => .throw e
        | .ok region => .next { region := region, data := s.data, line := s.line + 1 }
      else if rec.t = Record.END_OF_FILE then
        .ret (if s.region.size ≠ 0 then s.data ++ [s.region] else s.data)
      else if rec.t = Record.EXT_LIN_ADDRESS then
        .next { region := Region.init rec.address,
                data := if s.region.size ≠ 0 then s.data ++ [s.region] else s.data,
                line := s.line + 1 }
      else .next { region := s.region, data := s.data, line := s.line + 1 } := by
  unfold body
  rw [h]

theorem read_loop_runs (recs : List Record) (ls : List (List Char)) (eofl : List Char)
    (rest : List (List Char)) (eofr : Record) (s : Loop) (img : List Region)
    (hdec : ls.map decode = recs.map Except.ok)
    (hty : ∀ r ∈ recs, r.t = Record.DATA ∨ r.t = Record.EXT_LIN_ADDRESS)
    (heof : decode eofl = .ok eofr) (heoft : eofr.t = Record.END_OF_FILE)
    (h : read_loop s (ls ++ eofl :: rest) = .ok img) :
    img.map (fun r => (r.base_address, r.data))
      = s.data.map (fun r => (r.base_address, r.data))
        ++ (runs s.region.base_address s.region.data recs).filter (fun p => p.2.length ≠ 0) := by
  induction recs generalizing ls s with
  | nil =>
    have hls : ls = [] := by simpa using hdec
    subst hls
    rw [List.nil_append, read_loop_cons, body_of_ok s eofl eofr heof] at h
    have h1 : ¬ eofr.t = Record.DATA := by rw [heoft]; decide
    rw [if_neg h1, if_pos heoft] at h
    simp only [Except.ok.injEq] at h
    rw [← h]
    by_cases hsz : s.region.data = []
    · simp [runs, Region.size, hsz]
    · simp [runs, Region.size, hsz]
  | cons r rs ih =>
    cases ls with
    | nil => simp at hdec
    | cons l ls1 =>
      simp only [List.map_cons, List.cons.injEq] at hdec
      obtain ⟨hl, hdec1⟩ := hdec
      have hty1 : ∀ x ∈ rs, x.t = Record.DATA ∨ x.t = Record.EXT_LIN_ADDRESS :=
        fun x hx => hty x (List.mem_cons_of_mem _ hx)
      rw [List.cons_append, read_loop_cons, body_of_ok s l r hl] at h
      rcases hty r (List.mem_cons_self _ _) with hd | he
      · rw [if_pos hd] at h
        cases hi : insert_all s.region r.off r.bytes with
        | error e => rw [hi] at h; simp at h
        | ok region1 =>
          rw [hi] at h
          simp only [] at h
          obtain ⟨hdat, hbase⟩ := insert_all_ok_data _ _ _ _ hi
          have hne : ¬ r.t = Record.EXT_LIN_ADDRESS := by rw [hd]; decide
          rw [ih ls1 _ hdec1 hty1 h]
          simp only [runs, if_neg hne, hdat, hbase]
      · have h1 : ¬ r.t = Record.DATA := by rw [he]; decide
        have h2 : ¬ r.t = Record.END_OF_FILE := by rw [he]; decide
        rw [if_neg h1, if_neg h2, if_pos he] at h
        rw [ih ls1 _ hdec1 hty1 h]
        simp only [runs, if_pos he, Region.init]
        by_cases hsz : s.region.data = []
        · simp [Region.size, hsz]
        · simp [Region.size, hsz]

/-- C5: assembly splits regions exactly at ExtendedLinearAddress records.
If the lines before the first EndOfFile line decode to Data and
ExtendedLinearAddress records and assembly succeeds, the image lists, in
input order, the runs of Data payload that hold at least one byte; each
region has the base address of the record opening its run (0 for the first
run) and as many bytes as the payloads of its run. -/
theorem assembly_splits_at_ext (is : List Char) (ls : List (List Char)) (recs : List Record)
    (eofl : List Char) (eofr : Record) (rest : List (List Char)) (img : List Region)
    (hlines : lines is = ls ++ eofl :: rest)
    (hdec : ls.map decode = recs.map Except.ok)
    (hty : ∀ r ∈ recs, r.t = Record.DATA ∨ r.t = Record.EXT_LIN_ADDRESS)
    (heof : decode eofl = .ok eofr) (heoft : eofr.t = Record.END_OF_FILE)
    (h : read_records [] is = .ok img) :
    img.map (fun r => (r.base_address, r.size))
      = ((runs 0 [] recs).filter (fun p => p.2.length ≠ 0)).map (fun p => (p.1, p.2.length)) := by
  unfold read_records at h
  rw [hlines] at h
  have key := read_loop_runs recs ls eofl rest eofr _ img hdec hty heof heoft h
  simp only [List.map_nil, List.nil_append, Region.init] at key
  rw [← key, List.map_map]
  rfl

theorem assembly_splits_at_ext_witness :
    read_records []
        ":020000040001F9\n:01000000AA55\n:020000040002F8\n:01000000BB44\n:00000001FF\n".toList
      = .ok [{ data := [0xAA], base_address := 0x10000, offset := 0, offset_already_set := true },
          { data := [0xBB], base_address := 0x20000, offset := 0, offset_already_set := true }]
    ∧ List.map (fun r => (r.base_address, r.size))
        [({ data := [0xAA], base_address := 0x10000, offset := 0,
            offset_already_set := true } : Region),
          { data := [0xBB], base_address := 0x20000, offset := 0, offset_already_set := true }]
      = ((runs 0 [] [Record.of_address 0x10000, ⟨0, Record.DATA, [0xAA]⟩,
            Record.of_address 0x20000, ⟨0, Record.DATA, [0xBB]⟩]).filter
          (fun p => p.2.length ≠ 0)).map (fun p => (p.1, p.2.length)) :=
  ⟨by decide,
    assembly_splits_at_ext
      ":020000040001F9\n:01000000AA55\n:020000040002F8\n:01000000BB44\n:00000001FF\n".toList
      [":020000040001F9".toList, ":01000000AA55".toList, ":020000040002F8".toList,
        ":01000000BB44".toList]
      [Record.of_address 0x10000, ⟨0, Record.DATA, [0xAA]⟩,
        Record.of_address 0x20000, ⟨0, Record.DATA, [0xBB]⟩]
      ":00000001FF".toList Record.eof [[]] _
      (by decide) (by decide) (by decide) (by decide) (by decide) (by decide)⟩
/-! ## Data records that overlap -/

/-- C6, evaluation: a Data record for offset 0 that follows a Data record
covering offsets 0 and 1 is accepted, and its byte is stored third, at the
place of offset 2. -/
theorem overlapping_data_appended :
    decode ":02000000AABB99".toList = .ok ⟨0, Record.DATA, [0xAA, 0xBB]⟩
      ∧ decode ":01000000CC33".toList = .ok ⟨0, Record.DATA, [0xCC]⟩
      ∧ read_records [] ":02000000AABB99\n:01000000CC33\n:00000001FF\n".toList
          = .ok [{ data := [0xAA, 0xBB, 0xCC], base_address := 0, offset := 0,
                   offset_already_set := true }] := by
  decide

/-! ## Region.insert -/

/-- C7: `insert` on a region that is empty exactly when its offset is not
yet fixed.  On an empty region the call returns normally and fixes the
offset; on a non-empty one it returns normally exactly when the offset lies
between the region's offset and that offset plus the number of bytes, and
throws `continuous_exception` otherwise.  A normal return appends the byte
and keeps offset and base address; a throw leaves the region as it was. -/
theorem insert_spec (r : Region) (value_offset value : Nat)
    (hinv : r.offset_already_set = true ↔ r.data ≠ []) :
    (r.data = [] →
        r.insert value_offset value
          = ({ data := [value], base_address := r.base_address, offset := value_offset,
               offset_already_set := true }, none))
      ∧ (r.data ≠ [] →
          ((r.insert value_offset value).2 = none
              ↔ r.offset ≤ value_offset ∧ value_offset ≤ r.offset + r.data.length)
            ∧ ((r.insert value_offset value).2 = none →
                (r.insert value_offset value).1 = { r with data := r.data ++ [value] })
            ∧ ((r.insert value_offset value).2 ≠ none →
                r.insert value_offset value = (r, some .continuous_exception))) := by
  constructor
  · intro he
    have hf : r.offset_already_set = false := by
      cases hb : r.offset_already_set with
      | false => rfl
      | true => exact absurd he (hinv.mp hb)
    simp [Region.insert, hf, he]
  · intro hne
    have ht : r.offset_already_set = true := hinv.mpr hne
    unfold Region.insert
    rw [if_pos ht]
    by_cases h1 : value_offset < r.offset
    · rw [if_pos h1]
      refine ⟨⟨fun h => by simp at h, fun h => by omega⟩, fun h => by simp at h, fun _ => rfl⟩
    · rw [if_neg h1]
      by_cases h2 : value_offset > r.data.length + r.offset
      · rw [if_pos h2]
        refine ⟨⟨fun h => by simp at h, fun h => by omega⟩, fun h => by simp at h, fun _ => rfl⟩
      · rw [if_neg h2]
        refine ⟨⟨fun _ => by omega, fun _ => rfl⟩, fun _ => rfl, fun h => by simp at h⟩

theorem insert_spec_witness :
    (([0xAA, 0xBB] : List Nat) = [] →
        Region.insert ⟨[0xAA, 0xBB], 0, 0x10, true⟩ 0x11 0xCC
          = ({ data := [0xCC], base_address := 0, offset := 0x11,
               offset_already_set := true }, none))
      ∧ (([0xAA, 0xBB] : List Nat) ≠ [] →
          ((Region.insert ⟨[0xAA, 0xBB], 0, 0x10, true⟩ 0x11 0xCC).2 = none
              ↔ 0x10 ≤ 0x11 ∧ 0x11 ≤ 0x10 + ([0xAA, 0xBB] : List Nat).length)
            ∧ ((Region.insert ⟨[0xAA, 0xBB], 0, 0x10, true⟩ 0x11 0xCC).2 = none →
                (Region.insert ⟨[0xAA, 0xBB], 0, 0x10, true⟩ 0x11 0xCC).1
                  = { data := [0xAA, 0xBB] ++ [0xCC], base_address := 0, offset := 0x10,
                      offset_already_set := true })
            ∧ ((Region.insert ⟨[0xAA, 0xBB], 0, 0x10, true⟩ 0x11 0xCC).2 ≠ none →
                Region.insert ⟨[0xAA, 0xBB], 0, 0x10, true⟩ 0x11 0xCC
                  = (⟨[0xAA, 0xBB], 0, 0x10, true⟩, some .continuous_exception))) :=
  insert_spec ⟨[0xAA, 0xBB], 0, 0x10, true⟩ 0x11 0xCC (by decide)
theorem insert_keeps_inv (r : Region) (value_offset value : Nat)
    (hinv : r.offset_already_set = true ↔ r.data ≠ []) :
    ((r.insert value_offset value).1.offset_already_set = true
      ↔ (r.insert value_offset value).1.data ≠ []) := by
  unfold Region.insert
  split
  · split
    · exact hinv
    · split
      · exact hinv
      · simp_all
  · simp

theorem insert_list_cons (r : Region) (o v : Nat) (rest : List (Nat × Nat)) :
    r.insert_list ((o, v) :: rest) =
      match r.insert o v with
      | (r1, some e) => (r1, 0, some e)
      | (r1, none) =>
        ((Region.insert_list r1 rest).1, (Region.insert_list r1 rest).2.1 + 1,
          (Region.insert_list r1 rest).2.2) := rfl

theorem insert_list_contiguous (m : Nat) (f : Nat → Nat) (r : Region) (start : Nat)
    (hset : r.offset_already_set = true) (hstart : start = r.offset + r.data.length) :
    r.insert_list ((List.range' start m).map (fun i => (i, f i)))
      = ({ r with data := r.data ++ (List.range' start m).map f }, m, none) := by
  induction m generalizing r start with
  | zero => simp [Region.insert_list]
  | succ m ih =>
    rw [List.range'_succ, List.map_cons, insert_list_cons]
    have hi : r.insert start (f start) = ({ r with data := r.data ++ [f start] }, none) := by
      unfold Region.insert
      rw [if_pos hset, if_neg (by omega), if_neg (by omega)]
    rw [hi]
    simp only []
    rw [ih { r with data := r.data ++ [f start] } (start + 1) hset
      (by simp only [List.length_append, List.length_singleton]; omega)]
    simp

theorem insert_list_range (n : Nat) (f : Nat → Nat) (base : Nat) :
    (Region.init base).insert_list ((List.range n).map (fun i => (i, f i)))
      = ({ data := (List.range n).map f, base_address := base, offset := 0,
           offset_already_set := decide (0 < n) }, n, none) := by
  cases n with
  | zero => simp [Region.insert_list, Region.init]
  | succ n =>
    rw [List.range_eq_range', List.range'_succ, List.map_cons, insert_list_cons]
    have hi : (Region.init base).insert 0 (f 0)
        = ({ data := [f 0], base_address := base, offset := 0, offset_already_set := true },
            none) := by
      simp [Region.insert, Region.init]
    rw [hi]
    simp only []
    rw [insert_list_contiguous n f
      { data := [f 0], base_address := base, offset := 0, offset_already_set := true } (0 + 1)
      rfl rfl]
    simp

/-- C8, counterexample: after offsets 0 and 1 the region is not empty and its
next free offset is 2, yet the insertion at offset 0 returns normally; the
three insertions 0, 1, 0 all succeed. -/
theorem insert_backward_accepted :
    ((Region.init 0).insert_list [(0, 0xAA), (1, 0xBB)]).1
        = { data := [0xAA, 0xBB], base_address := 0, offset := 0, offset_already_set := true }
      ∧ (0 : Nat) ≠ 0 + ([0xAA, 0xBB] : List Nat).length
      ∧ Region.insert { data := [0xAA, 0xBB], base_address := 0, offset := 0,
                         offset_already_set := true } 0 0xCC
          = ({ data := [0xAA, 0xBB, 0xCC], base_address := 0, offset := 0,
               offset_already_set := true }, none)
      ∧ (Region.init 0).insert_list [(0, 0xAA), (1, 0xBB), (0, 0xCC)]
          = ({ data := [0xAA, 0xBB, 0xCC], base_address := 0, offset := 0,
               offset_already_set := true }, 3, none) := by
  decide

/-- C8, amended: an insertion into a non-empty region throws
`continuous_exception` exactly when its offset is below the region's offset
or above that offset plus the number of bytes; the offset just past the last
byte is accepted.  Offsets 0, 1, ..., n-1 inserted in turn into an empty
region all succeed, 0 then 2 fails at the second insertion, and 0, 1, 0
succeeds. -/
theorem insert_contiguity (r : Region) (value_offset value n base a b c : Nat) (f : Nat → Nat)
    (hinv : r.offset_already_set = true ↔ r.data ≠ []) (hne : r.data ≠ [])
    (_hn : n ≤ 65536) :
    ((r.insert value_offset value).2 = some .continuous_exception
        ↔ value_offset < r.offset ∨ r.offset + r.data.length < value_offset)
      ∧ ((r.insert value_offset value).2 = none
        ↔ r.offset ≤ value_offset ∧ value_offset ≤ r.offset + r.data.length)
      ∧ r.insert (r.offset + r.data.length) value = ({ r with data := r.data ++ [value] }, none)
      ∧ (Region.init base).insert_list ((List.range n).map (fun i => (i, f i)))
          = ({ data := (List.range n).map f, base_address := base, offset := 0,
               offset_already_set := decide (0 < n) }, n, none)
      ∧ (Region.init base).insert_list [(0, a), (2, b)]
          = ({ data := [a], base_address := base, offset := 0, offset_already_set := true },
              1, some .continuous_exception)
      ∧ (Region.init base).insert_list [(0, a), (1, b), (0, c)]
          = ({ data := [a, b, c], base_address := base, offset := 0,
               offset_already_set := true }, 3, none) := by
  have ht : r.offset_already_set = true := hinv.mpr hne
  refine ⟨?_, ?_, ?_, insert_list_range n f base, ?_, ?_⟩
  · unfold Region.insert
    rw [if_pos ht]
    by_cases h1 : value_offset < r.offset
    · rw [if_pos h1]; simp [h1]
    · rw [if_neg h1]
      by_cases h2 : value_offset > r.data.length + r.offset
      · rw [if_pos h2]; simp; omega
      · rw [if_neg h2]; simp; omega
  · unfold Region.insert
    rw [if_pos ht]
    by_cases h1 : value_offset < r.offset
    · rw [if_pos h1]; simp; omega
    · rw [if_neg h1]
      by_cases h2 : value_offset > r.data.length + r.offset
      · rw [if_pos h2]; simp; omega
      · rw [if_neg h2]; simp; omega
  · unfold Region.insert
    rw [if_pos ht, if_neg (by omega), if_neg (by omega)]
  · simp [Region.insert_list, Region.insert, Region.init]
  · simp [Region.insert_list, Region.insert, Region.init]

theorem insert_contiguity_witness :
    ((Region.insert ⟨[0xAA, 0xBB], 0, 0x10, true⟩ 0x13 0xCC).2 = some .continuous_exception
        ↔ 0x13 < 0x10 ∨ 0x10 + ([0xAA, 0xBB] : List Nat).length < 0x13)
      ∧ ((Region.insert ⟨[0xAA, 0xBB], 0, 0x10, true⟩ 0x13 0xCC).2 = none
        ↔ 0x10 ≤ 0x13 ∧ 0x13 ≤ 0x10 + ([0xAA, 0xBB] : List Nat).length)
      ∧ Region.insert ⟨[0xAA, 0xBB], 0, 0x10, true⟩ (0x10 + ([0xAA, 0xBB] : List Nat).length) 0xCC
          = ({ data := [0xAA, 0xBB] ++ [0xCC], base_address := 0, offset := 0x10,
               offset_already_set := true }, none)
      ∧ (Region.init 0).insert_list ((List.range 4).map (fun i => (i, id i)))
          = ({ data := (List.range 4).map id, base_address := 0, offset := 0,
               offset_already_set := decide (0 < 4) }, 4, none)
      ∧ (Region.init 0).insert_list [(0, 1), (2, 2)]
          = ({ data := [1], base_address := 0, offset := 0, offset_already_set := true },
              1, some .continuous_exception)
      ∧ (Region.init 0).insert_list [(0, 1), (1, 2), (0, 3)]
          = ({ data := [1, 2, 3], base_address := 0, offset := 0,
               offset_already_set := true }, 3, none) :=
  insert_contiguity ⟨[0xAA, 0xBB], 0, 0x10, true⟩ 0x13 0xCC 4 0 1 2 3 id (by decide) (by decide)
    (by decide)
/-! ## Assembly: line numbers and the end-of-file record -/

theorem body_next_line (s s1 : Loop) (l : List Char) (h : body s l = .next s1) :
    s1.line = s.line + 1 := by
  unfold body at h
  split at h
  · simp at h
  · simp at h
  · split at h
    · split at h
      · simp at h
      · simp only [Step.next.injEq] at h
        rw [← h]
    · split at h
      · simp at h
      · split at h
        · simp only [Step.next.injEq] at h
          rw [← h]
        · simp only [Step.next.injEq] at h
          rw [← h]

theorem run_lines_cons (s : Loop) (l : List Char) (ls : List (List Char)) :
    run_lines s (l :: ls) =
      match body s l with
      | .next s1 => run_lines s1 ls
      | _ => none := rfl

theorem run_lines_line (pre : List (List Char)) (s s1 : Loop) (h : run_lines s pre = some s1) :
    s1.line = s.line + pre.length := by
  induction pre generalizing s with
  | nil =>
    simp only [run_lines, Option.some.injEq] at h
    rw [← h]
    simp
  | cons l ls ih =>
    rw [run_lines_cons] at h
    cases hb : body s l with
    | next s2 =>
      rw [hb] at h
      simp only [] at h
      rw [ih s2 h, body_next_line s s2 l hb]
      simp only [List.length_cons]
      push_cast
      ring
    | ret d => rw [hb] at h; simp at h
    | throw e => rw [hb] at h; simp at h

theorem read_loop_append (pre tail : List (List Char)) (s s1 : Loop)
    (h : run_lines s pre = some s1) :
    read_loop s (pre ++ tail) = read_loop s1 tail := by
  induction pre generalizing s with
  | nil =>
    simp only [run_lines, Option.some.injEq] at h
    rw [← h]
    rfl
  | cons l ls ih =>
    rw [run_lines_cons] at h
    rw [List.cons_append, read_loop_cons]
    cases hb : body s l with
    | next s2 =>
      rw [hb] at h
      simp only [] at h ⊢
      exact ih s2 h
    | ret d => rw [hb] at h; simp at h
    | throw e => rw [hb] at h; simp at h

theorem body_checksum (s : Loop) (l iss iss2 tl : List Char) (len off type checksum : Nat)
    (bytes : List Nat)
    (hhead : read_header l = some (len, off, type, iss))
    (htype : type = Record.DATA ∨ type = Record.END_OF_FILE ∨ type = Record.EXT_LIN_ADDRESS)
    (hbytes : read_bytes len iss = some (bytes, iss2))
    (hcs : read_u8 iss2 = some (checksum, tl))
    (hne : checksum ≠ Record.checksum { off := off, t := type, bytes := bytes }) :
    body s l = .throw (.checksum_exception checksum
      (Record.checksum { off := off, t := type, bytes := bytes }) (s.line + 1)) := by
  have hd : decode l = .error (.checksum_exception checksum
      (Record.checksum { off := off, t := type, bytes := bytes }) (-1)) := by
    rw [decode_of_header l iss len off type hhead]
    have ht : type = Record.END_OF_FILE ∨ type = Record.EXT_LIN_ADDRESS ∨ type = Record.DATA := by
      tauto
    rw [if_pos ht, hbytes]
    simp only []
    rw [hcs]
    simp only []
    rw [if_pos hne]
  unfold body
  rw [hd]

/-- C9: when the loop has gone through the lines before line `k` without
returning or throwing, and line `k` has an implemented type code and a
transmitted checksum other than the recomputed one, `read_records` throws
`checksum_exception` with these two values and with line number `k`. -/
theorem checksum_error_line (hex : List Region) (is : List Char) (pre : List (List Char))
    (lk : List Char) (rest : List (List Char)) (s : Loop) (len off type checksum : Nat)
    (iss iss2 tl : List Char) (bytes : List Nat)
    (hlines : lines is = pre ++ lk :: rest)
    (hpre : run_lines { region := Region.init 0, data := hex, line := 0 } pre = some s)
    (hhead : read_header lk = some (len, off, type, iss))
    (htype : type = Record.DATA ∨ type = Record.END_OF_FILE ∨ type = Record.EXT_LIN_ADDRESS)
    (hbytes : read_bytes len iss = some (bytes, iss2))
    (hcs : read_u8 iss2 = some (checksum, tl))
    (hne : checksum ≠ Record.checksum { off := off, t := type, bytes := bytes }) :
    read_records hex is
      = .error (.checksum_exception checksum
          (Record.checksum { off := off, t := type, bytes := bytes }) ((pre.length : Int) + 1)) := by
  unfold read_records
  rw [hlines, read_loop_append pre _ _ s hpre, read_loop_cons,
    body_checksum s lk iss iss2 tl len off type checksum bytes hhead htype hbytes hcs hne]
  simp only []
  rw [run_lines_line pre _ s hpre]
  simp

theorem checksum_error_line_witness :
    read_records [] ":02000000AABB99\n:020000040001F9\n:01000000CC30\n:00000001FF\n".toList
      = .error (.checksum_exception 0x30
          (Record.checksum { off := 0, t := 0, bytes := [0xCC] })
          ((([":02000000AABB99".toList, ":020000040001F9".toList] : List (List Char)).length
            : Int) + 1)) :=
  checksum_error_line [] ":02000000AABB99\n:020000040001F9\n:01000000CC30\n:00000001FF\n".toList
    [":02000000AABB99".toList, ":020000040001F9".toList] ":01000000CC30".toList
    [":00000001FF".toList, []]
    { region := Region.init 0x10000,
      data := [{ data := [0xAA, 0xBB], base_address := 0, offset := 0,
                 offset_already_set := true }],
      line := 2 }
    1 0 0 0x30 "CC30".toList "30".toList [] [0xCC]
    (by decide) (by decide) (by decide) (by decide) (by decide) (by decide) (by decide)

theorem read_loop_prefix (pre : List (List Char)) (s : Loop) (d : List Region)
    (h : read_loop s pre = .ok d) :
    (∃ s1, run_lines s pre = some s1)
      ∨ (run_lines s pre = none ∧ ∀ tail, read_loop s (pre ++ tail) = .ok d) := by
  induction pre generalizing s with
  | nil => exact Or.inl ⟨s, rfl⟩
  | cons l ls ih =>
    rw [read_loop_cons] at h
    rw [run_lines_cons]
    cases hb : body s l with
    | next s2 =>
      rw [hb] at h
      simp only [] at h ⊢
      rcases ih s2 h with h1 | ⟨h1, h2⟩
      · exact Or.inl h1
      · refine Or.inr ⟨h1, fun tail => ?_⟩
        rw [List.cons_append, read_loop_cons, hb]
        exact h2 tail
    | ret d1 =>
      rw [hb] at h
      simp only [Except.ok.injEq] at h
      refine Or.inr ⟨rfl, fun tail => ?_⟩
      rw [List.cons_append, read_loop_cons, hb, h]
    | throw e => rw [hb] at h; simp at h

/-- C10: EndOfFile ends assembly.  When the loop gets through the lines
`pre` without an exception and the next line decodes to an EndOfFile record,
`read_records` succeeds and its result does not depend on the lines after
that record; if no line of `pre` made the function return, the result is the
image so far with the current region appended exactly when it is not
empty. -/
theorem eof_stops_assembly (hex : List Region) (is1 is2 : List Char) (pre : List (List Char))
    (eofl : List Char) (eofr : Record) (rest : List (List Char)) (d : List Region)
    (h1 : lines is1 = pre ++ eofl :: rest) (h2 : lines is2 = pre ++ [eofl])
    (hpre : read_loop { region := Region.init 0, data := hex, line := 0 } pre = .ok d)
    (heof : decode eofl = .ok eofr) (heoft : eofr.t = Record.END_OF_FILE) :
    read_records hex is1 = read_records hex is2
      ∧ (∃ img, read_records hex is2 = .ok img)
      ∧ ∀ s, run_lines { region := Region.init 0, data := hex, line := 0 } pre = some s →
          read_records hex is2
            = .ok (if s.region.size ≠ 0 then s.data ++ [s.region] else s.data) := by
  have hbody : ∀ s : Loop, ∀ tail, read_loop s (eofl :: tail)
      = .ok (if s.region.size ≠ 0 then s.data ++ [s.region] else s.data) := by
    intro s tail
    rw [read_loop_cons, body_of_ok s eofl eofr heof]
    have hn : ¬ eofr.t = Record.DATA := by rw [heoft]; decide
    rw [if_neg hn, if_pos heoft]
  unfold read_records
  rw [h1, h2]
  rcases read_loop_prefix pre _ d hpre with ⟨s1, hs1⟩ | ⟨hnone, hall⟩
  · rw [read_loop_append pre _ _ s1 hs1, read_loop_append pre _ _ s1 hs1, hbody, hbody]
    refine ⟨rfl, ⟨_, rfl⟩, fun s hs => ?_⟩
    rw [hs1] at hs
    simp only [Option.some.injEq] at hs
    rw [hs]
  · rw [hall, hall]
    refine ⟨rfl, ⟨_, rfl⟩, fun s hs => ?_⟩
    rw [hnone] at hs
    simp at hs

theorem eof_stops_assembly_witness :
    read_records [] ":01000000AA55\n:00000001FF\n:01000500BB00\nno record\n:0100".toList
        = read_records [] ":01000000AA55\n:00000001FF".toList
      ∧ (∃ img, read_records [] ":01000000AA55\n:00000001FF".toList = .ok img)
      ∧ ∀ s, run_lines { region := Region.init 0, data := [], line := 0 }
            [":01000000AA55".toList] = some s →
          read_records [] ":01000000AA55\n:00000001FF".toList
            = .ok (if s.region.size ≠ 0 then s.data ++ [s.region] else s.data) :=
  eof_stops_assembly [] ":01000000AA55\n:00000001FF\n:01000500BB00\nno record\n:0100".toList
    ":01000000AA55\n:00000001FF".toList [":01000000AA55".toList] ":00000001FF".toList
    Record.eof [":01000500BB00".toList, "no record".toList, ":0100".toList]
    [] (by decide) (by decide) (by decide) (by decide) (by decide)
/-! ## Erasing and moving regions -/

theorem find_le (hex : List Region) (a : Nat) : HexData.find hex a ≤ hex.length := by
  induction hex with
  | nil => simp [HexData.find]
  | cons r rs ih =>
    simp only [HexData.find, List.length_cons]
    split <;> omega

theorem find_eq_length (hex : List Region) (a : Nat) :
    HexData.find hex a = hex.length ↔ ∀ r ∈ hex, r.address ≠ a := by
  induction hex with
  | nil => simp [HexData.find]
  | cons r rs ih =>
    simp only [HexData.find, List.length_cons, List.mem_cons, forall_eq_or_imp]
    by_cases h : r.address = a
    · simp [h]
    · rw [if_neg h]
      simp only [Nat.add_right_cancel_iff, ih]
      exact ⟨fun hh => ⟨h, hh⟩, fun hh => hh.2⟩

theorem find_split (hex : List Region) (a : Nat) (h : HexData.find hex a ≠ hex.length) :
    ∃ l1 r l2, hex = l1 ++ r :: l2 ∧ r.address = a ∧ (∀ x ∈ l1, x.address ≠ a)
      ∧ HexData.find hex a = l1.length := by
  induction hex with
  | nil => simp [HexData.find] at h
  | cons r rs ih =>
    by_cases hr : r.address = a
    · exact ⟨[], r, rs, rfl, hr, by simp, by simp [HexData.find, hr]⟩
    · have h1 : HexData.find rs a ≠ rs.length := by
        intro hcon
        apply h
        simp [HexData.find, hr, hcon]
      obtain ⟨l1, x, l2, h2, h3, h4, h5⟩ := ih h1
      refine ⟨r :: l1, x, l2, by rw [h2]; rfl, h3, ?_, by simp [HexData.find, hr, h5]⟩
      intro y hy
      rcases List.mem_cons.mp hy with rfl | hy
      · exact hr
      · exact h4 y hy

theorem erase_at_length (l1 l2 : List Region) (r : Region) :
    HexData.erase (l1 ++ r :: l2) l1.length = l1 ++ l2 := by
  induction l1 with
  | nil => rfl
  | cons x xs ih =>
    simp only [HexData.erase, List.cons_append, List.length_cons, List.eraseIdx_cons_succ,
      List.cons.injEq, true_and] at ih ⊢
    exact ih

theorem at_iterator_length (f : Region → Region) (l1 l2 : List Region) (r : Region) :
    HexData.at_iterator f (l1 ++ r :: l2) l1.length = l1 ++ f r :: l2 := by
  induction l1 with
  | nil => rfl
  | cons x xs ih =>
    show x :: HexData.at_iterator f (xs ++ r :: l2) xs.length = x :: (xs ++ f r :: l2)
    rw [ih]

/-- C11: erasing by address.  If no region has the address, the warning
"not found" is given and the image is unchanged; otherwise the image is
`l1 ++ r :: l2` with `r` the first region at that address, and the result is
`l1 ++ l2`: exactly that region is removed, all others stay in order. -/
theorem erase_region_spec (hex : List Region) (a : Nat) :
    ((∀ r ∈ hex, r.address ≠ a) → erase_region hex a = (hex, some .not_found))
      ∧ ((∃ r ∈ hex, r.address = a) →
          ∃ l1 r l2, hex = l1 ++ r :: l2 ∧ r.address = a ∧ (∀ x ∈ l1, x.address ≠ a)
            ∧ erase_region hex a = (l1 ++ l2, none)
            ∧ (erase_region hex a).1.length + 1 = hex.length) := by
  constructor
  · intro h
    have := (find_eq_length hex a).mpr h
    simp [erase_region, this]
  · intro h
    have hne : HexData.find hex a ≠ hex.length := by
      intro hcon
      obtain ⟨r, hr, hra⟩ := h
      exact (find_eq_length hex a).mp hcon r hr hra
    obtain ⟨l1, r, l2, h1, h2, h3, h4⟩ := find_split hex a hne
    have he : erase_region hex a = (l1 ++ l2, none) := by
      unfold erase_region
      simp only []
      rw [if_neg hne, h4, h1, erase_at_length]
    refine ⟨l1, r, l2, h1, h2, h3, he, ?_⟩
    rw [he, h1]
    simp only [List.length_append, List.length_cons]
    omega
theorem and_mask_high (a : Nat) (h : a < 2 ^ 32) : a &&& 0xffff0000 = a / 65536 * 65536 := by
  have hm : (0xffff0000 : Nat) = (2 ^ 16 - 1) <<< 16 := by decide
  have hr : a / 65536 * 65536 = (a >>> 16) <<< 16 := by
    rw [Nat.shiftLeft_eq, Nat.shiftRight_eq_div_pow]
  rw [hm, hr]
  apply Nat.eq_of_testBit_eq
  intro i
  rw [Nat.testBit_and, Nat.testBit_shiftLeft, Nat.testBit_shiftLeft,
    Nat.testBit_two_pow_sub_one, Nat.testBit_shiftRight]
  by_cases h16 : 16 ≤ i
  · by_cases h32 : i < 32
    · have h1 : i - 16 < 16 := by omega
      have e : 16 + (i - 16) = i := by omega
      simp [h16, h1, e]
    · have hlt : a < 2 ^ i := lt_of_lt_of_le h (Nat.pow_le_pow_right (by norm_num) (by omega))
      have e : 16 + (i - 16) = i := by omega
      have h1 : ¬ i - 16 < 16 := by omega
      simp [Nat.testBit_lt_two_pow hlt, e, h1]
  · simp [h16]

theorem and_mask_low (a : Nat) : a &&& 0x0000ffff = a % 65536 := by
  have h := Nat.and_pow_two_sub_one_eq_mod a 16
  simpa using h

theorem and_mask_byte (a : Nat) : a &&& 0xff = a % 256 := by
  have h := Nat.and_pow_two_sub_one_eq_mod a 8
  simpa using h

theorem move_base_address_address (r : Region) (dst : Nat) (h : dst < 2 ^ 32) :
    (r.move_base_address dst).address = dst := by
  unfold Region.move_base_address Region.address
  simp only []
  rw [and_mask_high dst h, and_mask_low]
  omega

/-- C12: moving by address.  With no region at `src` the image is unchanged
("not found"); with a region at `src` and one at `dst` it is unchanged
("already exists"); otherwise the first region at `src` gets the upper half
of `dst` as base address and the lower half as offset, so that its address is
`dst`, its bytes stay, and the regions around it stay as they are. -/
theorem move_region_spec (hex : List Region) (src dst : Nat) (hdst : dst < 2 ^ 32) :
    ((∀ r ∈ hex, r.address ≠ src) → move_region hex src dst = (hex, some .not_found))
      ∧ ((∃ r ∈ hex, r.address = src) → (∃ r ∈ hex, r.address = dst) →
          move_region hex src dst = (hex, some .already_exists))
      ∧ ((∃ r ∈ hex, r.address = src) → (∀ r ∈ hex, r.address ≠ dst) →
          ∃ l1 r l2, hex = l1 ++ r :: l2 ∧ r.address = src ∧ (∀ x ∈ l1, x.address ≠ src)
            ∧ move_region hex src dst = (l1 ++ r.move_base_address dst :: l2, none)
            ∧ (r.move_base_address dst).base_address = dst &&& 0xFFFF0000
            ∧ (r.move_base_address dst).offset = dst &&& 0x0000FFFF
            ∧ (r.move_base_address dst).address = dst
            ∧ (r.move_base_address dst).data = r.data) := by
  have hfound : (∃ r ∈ hex, r.address = src) → HexData.find hex src ≠ hex.length := by
    intro h hcon
    obtain ⟨r, hr, hra⟩ := h
    exact (find_eq_length hex src).mp hcon r hr hra
  refine ⟨?_, ?_, ?_⟩
  · intro h
    have := (find_eq_length hex src).mpr h
    simp [move_region, this]
  · intro hs hd
    have h1 := hfound hs
    have h2 : HexData.find hex dst ≠ hex.length := by
      intro hcon
      obtain ⟨r, hr, hra⟩ := hd
      exact (find_eq_length hex dst).mp hcon r hr hra
    unfold move_region
    simp only []
    rw [if_neg h1, if_pos h2]
  · intro hs hd
    have h1 := hfound hs
    have h2 : ¬ HexData.find hex dst ≠ hex.length := not_not.mpr ((find_eq_length hex dst).mpr hd)
    obtain ⟨l1, r, l2, e1, e2, e3, e4⟩ := find_split hex src h1
    refine ⟨l1, r, l2, e1, e2, e3, ?_, rfl, rfl, move_base_address_address r dst hdst, rfl⟩
    unfold move_region
    simp only []
    rw [if_neg h1, if_neg h2, e4, e1, at_iterator_length]

theorem move_region_spec_witness :
    ((∀ r ∈ [(⟨[1], 0, 0x10, true⟩ : Region), ⟨[2, 3], 0x10000, 0, true⟩], r.address ≠ 0x10000) →
        move_region [⟨[1], 0, 0x10, true⟩, ⟨[2, 3], 0x10000, 0, true⟩] 0x10000 0x2345678
          = ([⟨[1], 0, 0x10, true⟩, ⟨[2, 3], 0x10000, 0, true⟩], some .not_found))
      ∧ ((∃ r ∈ [(⟨[1], 0, 0x10, true⟩ : Region), ⟨[2, 3], 0x10000, 0, true⟩],
            r.address = 0x10000) →
          (∃ r ∈ [(⟨[1], 0, 0x10, true⟩ : Region), ⟨[2, 3], 0x10000, 0, true⟩],
            r.address = 0x2345678) →
          move_region [⟨[1], 0, 0x10, true⟩, ⟨[2, 3], 0x10000, 0, true⟩] 0x10000 0x2345678
            = ([⟨[1], 0, 0x10, true⟩, ⟨[2, 3], 0x10000, 0, true⟩], some .already_exists))
      ∧ ((∃ r ∈ [(⟨[1], 0, 0x10, true⟩ : Region), ⟨[2, 3], 0x10000, 0, true⟩],
            r.address = 0x10000) →
          (∀ r ∈ [(⟨[1], 0, 0x10, true⟩ : Region), ⟨[2, 3], 0x10000, 0, true⟩],
            r.address ≠ 0x2345678) →
          ∃ l1 r l2, [(⟨[1], 0, 0x10, true⟩ : Region), ⟨[2, 3], 0x10000, 0, true⟩] = l1 ++ r :: l2
            ∧ r.address = 0x10000 ∧ (∀ x ∈ l1, x.address ≠ 0x10000)
            ∧ move_region [⟨[1], 0, 0x10, true⟩, ⟨[2, 3], 0x10000, 0, true⟩] 0x10000 0x2345678
                = (l1 ++ r.move_base_address 0x2345678 :: l2, none)
            ∧ (r.move_base_address 0x2345678).base_address = 0x2345678 &&& 0xFFFF0000
            ∧ (r.move_base_address 0x2345678).offset = 0x2345678 &&& 0x0000FFFF
            ∧ (r.move_base_address 0x2345678).address = 0x2345678
            ∧ (r.move_base_address 0x2345678).data = r.data) :=
  move_region_spec [⟨[1], 0, 0x10, true⟩, ⟨[2, 3], 0x10000, 0, true⟩] 0x10000 0x2345678
    (by decide)

/-! ## Record constructors -/

/-- C15: for a 32-bit address `a`, `Record(a)` is an ExtendedLinearAddress
record with offset 0 and the two payload bytes `(a >> 24) & 0xFF`,
`(a >> 16) & 0xFF`; its `address()` is `a & 0xFFFF0000`, which is
`payload[0] << 24 | payload[1] << 16`; `create_data(a)` is a Data record
without payload and with offset `a & 0xFFFF`. -/
theorem record_constructors (a : Nat) (ha : a < 2 ^ 32) :
    Record.of_address a
        = { off := 0, t := Record.EXT_LIN_ADDRESS,
            bytes := [(a >>> 24) &&& 0xFF, (a >>> 16) &&& 0xFF] }
      ∧ (Record.of_address a).address = a &&& 0xFFFF0000
      ∧ (Record.of_address a).address
          = (((a >>> 24) &&& 0xFF) <<< 24) ||| (((a >>> 16) &&& 0xFF) <<< 16)
      ∧ Record.create_data a = { off := a &&& 0xFFFF, t := Record.DATA, bytes := [] } := by
  have haddr : (Record.of_address a).address = a / 65536 * 65536 := by
    simp only [Record.of_address, Record.address]
    omega
  refine ⟨?_, ?_, ?_, ?_⟩
  · simp only [Record.of_address, and_mask_byte, Nat.shiftRight_eq_div_pow]
  · rw [haddr, and_mask_high a ha]
  · rw [haddr, and_mask_byte, and_mask_byte, Nat.shiftRight_eq_div_pow,
      Nat.shiftRight_eq_div_pow, Nat.shiftLeft_eq, Nat.shiftLeft_eq]
    have hlt : a / 2 ^ 16 % 256 * 2 ^ 16 < 2 ^ 24 := by omega
    have hor := Nat.mul_add_lt_is_or hlt (a / 2 ^ 24 % 256)
    rw [Nat.mul_comm (a / 2 ^ 24 % 256) (2 ^ 24), ← hor]
    omega
  · simp only [Record.create_data, Record.of_type, and_mask_low]

theorem record_constructors_witness :
    Record.of_address 0x12345678
        = { off := 0, t := Record.EXT_LIN_ADDRESS,
            bytes := [(0x12345678 >>> 24) &&& 0xFF, (0x12345678 >>> 16) &&& 0xFF] }
      ∧ (Record.of_address 0x12345678).address = 0x12345678 &&& 0xFFFF0000
      ∧ (Record.of_address 0x12345678).address
          = (((0x12345678 >>> 24) &&& 0xFF) <<< 24) ||| (((0x12345678 >>> 16) &&& 0xFF) <<< 16)
      ∧ Record.create_data 0x12345678
          = { off := 0x12345678 &&& 0xFFFF, t := Record.DATA, bytes := [] } :=
  record_constructors 0x12345678 (by decide)
/-! ## The worked example of the specification -/

theorem h2b_le (t : Char) : h2b t ≤ 15 := by
  unfold h2b
  split
  · rename_i h
    have h2 : t.toNat ≤ '9'.toNat := h.2
    have e : '9'.toNat - '0'.toNat = 9 := by decide
    omega
  · split
    · rename_i h
      have h2 : t.toNat ≤ 'F'.toNat := h.2
      have e : 'F'.toNat - 'A'.toNat = 5 := by decide
      omega
    · split
      · rename_i h
        have h2 : t.toNat ≤ 'f'.toNat := h.2
        have e : 'f'.toNat - 'a'.toNat = 5 := by decide
        omega
      · omega

/-- C16, counterexample: in `:10000000112233445566778899AABBCCDDEEFF94` the
length field is 0x10, so the payload loop takes sixteen bytes, the last one
being `94`, and nothing is left for the checksum; the line does not decode to
a record, whatever character the unwritten variable holds (the byte formed
from it never equals the recomputed checksum), and no image results. -/
theorem example_line_not_decoded :
    read_header ":10000000112233445566778899AABBCCDDEEFF94".toList
        = some (0x10, 0, Record.DATA, "112233445566778899AABBCCDDEEFF94".toList)
      ∧ read_bytes 0x10 "112233445566778899AABBCCDDEEFF94".toList
          = some ([0x11, 0x22, 0x33, 0x44, 0x55, 0x66, 0x77, 0x88, 0x99, 0xAA, 0xBB, 0xCC, 0xDD,
              0xEE, 0xFF, 0x94], [])
      ∧ read_u8 [] = none
      ∧ (∀ t : Char, ((0 + h2b t) % 256 * 16 % 256 + h2b t) % 256
          ≠ Record.checksum ⟨0, Record.DATA, [0x11, 0x22, 0x33, 0x44, 0x55, 0x66, 0x77, 0x88,
              0x99, 0xAA, 0xBB, 0xCC, 0xDD, 0xEE, 0xFF, 0x94]⟩)
      ∧ decode ":10000000112233445566778899AABBCCDDEEFF94".toList = .error .uninitialised
      ∧ read_records [] ":10000000112233445566778899AABBCCDDEEFF94\n:00000001FF\n".toList
          = .error .uninitialised := by
  refine ⟨by decide, by decide, rfl, ?_, by decide, by decide⟩
  intro t
  have h := h2b_le t
  have hc : Record.checksum ⟨0, Record.DATA, [0x11, 0x22, 0x33, 0x44, 0x55, 0x66, 0x77, 0x88,
      0x99, 0xAA, 0xBB, 0xCC, 0xDD, 0xEE, 0xFF, 0x94]⟩ = 0x64 := by decide
  rw [hc]
  omega

/-- C16, amended: the line `:0F000000112233445566778899AABBCCDDEEFFF9`
decodes to a Data record of length 15 with offset 0, payload
0x11, 0x22, ..., 0xFF and checksum 0xF9, and assembling it followed by
`:00000001FF` gives one region of 15 bytes at address 0. -/
theorem example_line_fifteen :
    decode ":0F000000112233445566778899AABBCCDDEEFFF9".toList
        = .ok ⟨0, Record.DATA, [0x11, 0x22, 0x33, 0x44, 0x55, 0x66, 0x77, 0x88, 0x99, 0xAA, 0xBB,
            0xCC, 0xDD, 0xEE, 0xFF]⟩
      ∧ Record.size ⟨0, Record.DATA, [0x11, 0x22, 0x33, 0x44, 0x55, 0x66, 0x77, 0x88, 0x99, 0xAA,
            0xBB, 0xCC, 0xDD, 0xEE, 0xFF]⟩ = 15
      ∧ Record.checksum ⟨0, Record.DATA, [0x11, 0x22, 0x33, 0x44, 0x55, 0x66, 0x77, 0x88, 0x99,
            0xAA, 0xBB, 0xCC, 0xDD, 0xEE, 0xFF]⟩ = 0xF9
      ∧ read_records [] ":0F000000112233445566778899AABBCCDDEEFFF9\n:00000001FF\n".toList
          = .ok [{ data := [0x11, 0x22, 0x33, 0x44, 0x55, 0x66, 0x77, 0x88, 0x99, 0xAA, 0xBB,
                     0xCC, 0xDD, 0xEE, 0xFF],
                   base_address := 0, offset := 0, offset_already_set := true }]
      ∧ Region.address ⟨[0x11, 0x22, 0x33, 0x44, 0x55, 0x66, 0x77, 0x88, 0x99, 0xAA, 0xBB, 0xCC,
            0xDD, 0xEE, 0xFF], 0, 0, true⟩ = 0 := by
  decide

/-! ## End of the stream without an EndOfFile record -/

/-- C17, evaluation: input that ends without an EndOfFile record is read
without an exception, and the bytes of the last run are not in the image. -/
theorem last_region_dropped :
    decode ":01000000AA55".toList = .ok ⟨0, Record.DATA, [0xAA]⟩
      ∧ read_records [] ":01000000AA55".toList = .ok []
      ∧ read_records [] ":020000040001F9\n:01000000AA55\n:020000040002F8\n:01000000BB44".toList
          = .ok [{ data := [0xAA], base_address := 0x10000, offset := 0,
                   offset_already_set := true }] := by
  decide

/-! ## Region.inside -/

/-- C18, evaluation: for the region of four bytes at address 0x100,
`inside` is false at the address of every one of its bytes; for a region of
four bytes at address 0 it is true at 1000, far outside. -/
theorem inside_wrong :
    Region.address ⟨[1, 2, 3, 4], 0, 0x100, true⟩ = 0x100
      ∧ Region.inside ⟨[1, 2, 3, 4], 0, 0x100, true⟩ 0x100 = false
      ∧ Region.inside ⟨[1, 2, 3, 4], 0, 0x100, true⟩ 0x101 = false
      ∧ Region.inside ⟨[1, 2, 3, 4], 0, 0x100, true⟩ 0x103 = false
      ∧ Region.inside ⟨[1, 2, 3, 4], 0, 0, true⟩ 1000 = true := by
  decide

/-! ## The start mark -/

theorem get_char_skip (ws : List Char) (c : Char) (rest : List Char)
    (hws : ∀ x ∈ ws, isspace x = true) (hc : isspace c = false) :
    get_char (ws ++ c :: rest) = some (c, rest) := by
  induction ws with
  | nil => rw [List.nil_append, get_char_cons, hc]; rfl
  | cons x xs ih =>
    rw [List.cons_append, get_char_cons, hws x (by simp), if_pos rfl]
    exact ih (fun y hy => hws y (by simp [hy]))

theorem read_header_mark (ws : List Char) (c : Char) (rest : List Char)
    (hws : ∀ x ∈ ws, isspace x = true) (hc : isspace c = false) :
    read_header (ws ++ c :: rest) = read_header (':' :: rest) := by
  unfold read_header
  have hm : get_char (':' :: rest) = some (':', rest) :=
    get_char_skip [] ':' rest (by simp) (by decide)
  rw [get_char_skip ws c rest hws hc, hm]

/-- C20: the start mark is not inspected.  A line whose first
non-whitespace character is any character `c` decodes exactly as the line
that has `':'` there: the same record or the same exception. -/
theorem decode_ignores_mark (ws : List Char) (c : Char) (rest : List Char)
    (hws : ∀ x ∈ ws, isspace x = true) (hc : isspace c = false) :
    decode (ws ++ c :: rest) = decode (':' :: rest) := by
  unfold decode
  rw [read_header_mark ws c rest hws hc]

theorem decode_ignores_mark_witness :
    decode ([] ++ 'x' :: "00000001FF".toList) = decode (':' :: "00000001FF".toList) :=
  decode_ignores_mark [] 'x' "00000001FF".toList (by decide) (by decide)
/-! ## Export as Intel-HEX: the loop of `dump_ihex` -/

theorem dump_loop_nil (r : Region) (w fuel : Nat) (s : Dump) (h : s.i = []) :
    Region.dump_loop r w fuel s = some s.os := by
  cases fuel <;> simp [Region.dump_loop, h]

theorem dump_loop_succ (r : Region) (w fuel : Nat) (s : Dump) (h : s.i ≠ []) :
    Region.dump_loop r w (fuel + 1) s = Region.dump_loop r w fuel (Region.dump_step r w s) := by
  simp [Region.dump_loop, h]

theorem dump_step_new (r : Region) (w a : Nat) (rec : Record) (b : Nat) (rest : List Nat)
    (out : List Record) :
    Region.dump_step r w ⟨a, .NEW_RECORD, rec, b :: rest, out⟩
      = ⟨a, .DATA, Record.create_data ((a + r.offset) % 2 ^ 32), b :: rest, out⟩ := rfl

theorem dump_step_emit (r : Region) (w a : Nat) (rec : Record) (b : Nat) (rest : List Nat)
    (out : List Record) (h : rec.size ≥ w) :
    Region.dump_step r w ⟨a, .DATA, rec, b :: rest, out⟩
      = ⟨a, .NEW_RECORD, rec, b :: rest, out ++ [rec]⟩ := by
  simp [Region.dump_step, h]

theorem dump_step_push (r : Region) (w a : Nat) (rec : Record) (b : Nat) (rest : List Nat)
    (out : List Record) (h : rec.size < w) :
    Region.dump_step r w ⟨a, .DATA, rec, b :: rest, out⟩
      = ⟨(a + 1) % 2 ^ 32, .DATA, rec.push_back b, rest,
          if rest = [] then out ++ [rec.push_back b] else out⟩ := by
  have h' : ¬ rec.size ≥ w := by omega
  simp [Region.dump_step, h']

theorem dump_fill_end (r : Region) (w : Nat) (rest : List Nat) (hrest : rest ≠ [])
    (a : Nat) (rec : Record) (out : List Record) (fuel : Nat)
    (hfit : rec.size + rest.length ≤ w) :
    Region.dump_loop r w (fuel + rest.length) ⟨a, .DATA, rec, rest, out⟩
      = some (out ++ [{ rec with bytes := rec.bytes ++ rest }]) := by
  induction rest generalizing a rec with
  | nil => exact absurd rfl hrest
  | cons b rest ih =>
    simp only [List.length_cons] at hfit ⊢
    rw [← Nat.add_assoc, dump_loop_succ r w _ _ (by simp),
      dump_step_push r w a rec b rest out (by omega)]
    by_cases hr : rest = []
    · subst hr
      rw [dump_loop_nil r w _ _ rfl]
      simp [Record.push_back]
    · rw [if_neg hr, ih hr _ (rec.push_back b) (by simp [Record.push_back, Record.size] at *; omega)]
      simp [Record.push_back]

theorem dump_fill_full (r : Region) (w : Nat) (pre post : List Nat) (hpost : post ≠ [])
    (a : Nat) (ha : a < 2 ^ 32) (rec : Record) (out : List Record) (fuel : Nat)
    (hfit : rec.size + pre.length = w) :
    Region.dump_loop r w (fuel + pre.length + 1) ⟨a, .DATA, rec, pre ++ post, out⟩
      = Region.dump_loop r w fuel
          ⟨(a + pre.length) % 2 ^ 32, .NEW_RECORD, { rec with bytes := rec.bytes ++ pre }, post,
            out ++ [{ rec with bytes := rec.bytes ++ pre }]⟩ := by
  induction pre generalizing a rec with
  | nil =>
    obtain ⟨b, post1, rfl⟩ := List.exists_cons_of_ne_nil hpost
    simp only [List.length_nil, Nat.add_zero, List.nil_append, List.append_nil] at hfit ⊢
    rw [dump_loop_succ r w _ _ (by simp), dump_step_emit r w a rec b post1 out (by omega),
      Nat.mod_eq_of_lt ha]
  | cons b pre ih =>
    simp only [List.length_cons, List.cons_append] at hfit ⊢
    have hne : pre ++ post ≠ [] := by simp [hpost]
    rw [dump_loop_succ r w _ _ (by simp),
      dump_step_push r w a rec b (pre ++ post) out (by omega), if_neg hne]
    have hstep := ih ((a + 1) % 2 ^ 32) (Nat.mod_lt _ (by norm_num)) (rec.push_back b)
      (by simp [Record.push_back, Record.size] at *; omega)
    have hf : fuel + (pre.length + 1) = fuel + pre.length + 1 := by omega
    rw [hf, hstep]
    have haddr : ((a + 1) % 2 ^ 32 + pre.length) % 2 ^ 32 = (a + (pre.length + 1)) % 2 ^ 32 := by
      omega
    rw [haddr]
    simp [Record.push_back]

/-! ### The chunks named by the specification -/

theorem chunk_records_nil (w start : Nat) (hw : 1 ≤ w) : chunk_records w start [] = [] := by
  have h : (([] : List Nat).length + w - 1) / w = 0 := by
    rw [List.length_nil, Nat.zero_add]
    exact Nat.div_eq_of_lt (by omega)
  unfold chunk_records
  rw [h]
  rfl

theorem chunk_records_short (w start : Nat) (data : List Nat) (hne : data ≠ [])
    (hlen : data.length ≤ w) :
    chunk_records w start data = [{ off := start % 65536, t := Record.DATA, bytes := data }] := by
  have hpos : 0 < data.length := List.length_pos.mpr hne
  have h : (data.length + w - 1) / w = 1 := by
    apply Nat.div_eq_of_lt_le <;> omega
  simp [chunk_records, h, List.range_succ, List.take_of_length_le hlen]

theorem chunk_records_long (w start : Nat) (data : List Nat) (hw : 1 ≤ w)
    (hlen : w < data.length) :
    chunk_records w start data
      = { off := start % 65536, t := Record.DATA, bytes := data.take w }
          :: chunk_records w (start + w) (data.drop w) := by
  have h : (data.length + w - 1) / w = ((data.drop w).length + w - 1) / w + 1 := by
    rw [List.length_drop]
    have e : data.length + w - 1 = (data.length - w + w - 1) + w := by omega
    rw [e, Nat.add_div_right _ (by omega)]
  unfold chunk_records
  rw [h, List.range_succ_eq_map, List.map_cons, List.map_map]
  simp only [Nat.zero_mul, Nat.add_zero, List.drop_zero, List.cons.injEq, true_and]
  apply List.map_congr_left
  intro k _
  simp only [Function.comp, Nat.succ_eq_add_one, List.drop_drop, Record.mk.injEq, true_and]
  constructor
  · congr 1
    ring
  · congr 2
    ring

theorem chunk_records_congr (w s1 s2 : Nat) (data : List Nat) (h : s1 % 65536 = s2 % 65536) :
    chunk_records w s1 data = chunk_records w s2 data := by
  unfold chunk_records
  apply List.map_congr_left
  intro k _
  simp only [Record.mk.injEq, and_true, true_and]
  omega

theorem dump_loop_chunks (r : Region) (w : Nat) (hw : 1 ≤ w) (n : Nat) :
    ∀ (rest : List Nat), rest.length ≤ n → rest ≠ [] → ∀ (a : Nat), a < 2 ^ 32 →
      ∀ (rec : Record) (out : List Record) (fuel : Nat),
        Region.dump_loop r w (fuel + 3 * rest.length) ⟨a, .NEW_RECORD, rec, rest, out⟩
          = some (out ++ chunk_records w (a + r.offset) rest) := by
  induction n with
  | zero =>
    intro rest hlen hne
    exact absurd (List.length_eq_zero.mp (by omega)) hne
  | succ n ih =>
    intro rest hlen hne a ha rec out fuel
    obtain ⟨b, rest1, rfl⟩ := List.exists_cons_of_ne_nil hne
    have hcd : (Record.create_data ((a + r.offset) % 2 ^ 32))
        = { off := (a + r.offset) % 65536, t := Record.DATA, bytes := [] } := by
      simp only [Record.create_data, Record.of_type, Record.mk.injEq, and_true]
      omega
    by_cases hshort : (b :: rest1).length ≤ w
    · have hf : fuel + 3 * (b :: rest1).length
          = (fuel + 2 * (b :: rest1).length - 1 + (b :: rest1).length) + 1 := by
        simp only [List.length_cons]
        omega
      rw [hf, dump_loop_succ r w _ _ (by simp), dump_step_new, hcd,
        dump_fill_end r w (b :: rest1) hne a _ out _ (by simpa [Record.size] using hshort),
        chunk_records_short w _ _ hne hshort]
      simp
    · have hlong : w < (b :: rest1).length := by omega
      have hsplit : b :: rest1 = (b :: rest1).take w ++ (b :: rest1).drop w :=
        (List.take_append_drop w _).symm
      have htake : ((b :: rest1).take w).length = w := by
        rw [List.length_take]
        omega
      have hdrop : ((b :: rest1).drop w).length = (b :: rest1).length - w := List.length_drop _ _
      have hdne : (b :: rest1).drop w ≠ [] := by
        intro hnil
        rw [hnil] at hdrop
        simp only [List.length_nil] at hdrop
        omega
      have hf : fuel + 3 * (b :: rest1).length
          = ((fuel + 2 * w - 2 + 3 * ((b :: rest1).drop w).length)
              + ((b :: rest1).take w).length + 1) + 1 := by
        rw [hdrop, htake]
        omega
      rw [hf, dump_loop_succ r w _ _ (by simp), dump_step_new, hcd]
      have hfull := dump_fill_full r w ((b :: rest1).take w) ((b :: rest1).drop w) hdne a ha
        { off := (a + r.offset) % 65536, t := Record.DATA, bytes := [] } out
        (fuel + 2 * w - 2 + 3 * ((b :: rest1).drop w).length)
        (by simp only [Record.size, List.length_nil, Nat.zero_add]; exact htake)
      rw [← hsplit] at hfull
      rw [hfull, ih _ (by rw [hdrop]; simp only [List.length_cons] at hlen ⊢; omega) hdne _
        (Nat.mod_lt _ (by norm_num)), chunk_records_long w _ _ hw hlong, htake]
      simp only [List.nil_append, List.append_assoc, List.singleton_append, Option.some.injEq,
        List.append_cancel_left_eq, List.cons.injEq, Record.mk.injEq, and_true, true_and]
      apply chunk_records_congr
      omega

theorem dump_records_eq (r : Region) (w fuel : Nat) (hw : 1 ≤ w) (hbase : r.base_address < 2 ^ 32)
    (hfuel : 3 * r.data.length ≤ fuel) :
    r.dump_records w fuel
      = some (Record.of_address r.base_address
          :: chunk_records w (r.base_address + r.offset) r.data) := by
  unfold Region.dump_records
  by_cases hne : r.data = []
  · rw [dump_loop_nil r w _ _ hne, hne, chunk_records_nil w _ hw]
  · have hf : fuel = (fuel - 3 * r.data.length) + 3 * r.data.length := by omega
    rw [hf, dump_loop_chunks r w hw r.data.length r.data (le_refl _) hne _ hbase]
    rfl
theorem extract_encode (rec : Record)
    (hk : rec.t = Record.DATA ∨ rec.t = Record.END_OF_FILE ∨ rec.t = Record.EXT_LIN_ADDRESS)
    (ho : rec.off < 65536) (hb : ∀ b ∈ rec.bytes, b < 256) (hl : rec.bytes.length ≤ 255) :
    Record.extract (encode rec) = (.ok rec, [], false) := by
  have ht : rec.t < 256 := by
    rcases hk with h | h | h <;> rw [h] <;> decide
  unfold Record.extract
  rw [encode_eq, getline_append _ _ (encode_line_no_lf rec ht ho hb hl)]
  simp only []
  rw [decode_encode_line rec hk ho hb hl]

theorem chunk_records_get (w start : Nat) (data : List Nat) (k : Nat)
    (hk : k < (data.length + w - 1) / w) :
    (chunk_records w start data)[k]?
      = some { off := (start + k * w) % 65536, t := Record.DATA,
               bytes := (data.drop (k * w)).take w } := by
  unfold chunk_records
  rw [List.getElem?_map, List.getElem?_range hk]
  rfl

theorem chunk_count_bounds (n w k : Nat) (hw : 1 ≤ w) (hk : k < (n + w - 1) / w) :
    k * w < n ∧ (k + 1 < (n + w - 1) / w → (k + 1) * w < n) := by
  have hdiv : (n + w - 1) / w * w ≤ n + w - 1 := Nat.div_mul_le_self _ _
  constructor
  · have h1 : (k + 1) * w ≤ (n + w - 1) / w * w := Nat.mul_le_mul_right w hk
    have h2 : (k + 1) * w = k * w + w := by ring
    omega
  · intro hk2
    have h1 : (k + 2) * w ≤ (n + w - 1) / w * w := Nat.mul_le_mul_right w hk2
    have h2 : (k + 2) * w = (k + 1) * w + w := by ring
    omega

theorem chunk_records_flatten (w : Nat) (hw : 1 ≤ w) (n : Nat) :
    ∀ (data : List Nat) (s : Nat), data.length ≤ n →
      ((chunk_records w s data).map Record.bytes).flatten = data := by
  induction n with
  | zero =>
    intro data s hlen
    have hnil : data = [] := List.length_eq_zero.mp (by omega)
    rw [hnil, chunk_records_nil w s hw]
    rfl
  | succ n ih =>
    intro data s hlen
    by_cases hne : data = []
    · rw [hne, chunk_records_nil w s hw]
      rfl
    · by_cases hshort : data.length ≤ w
      · rw [chunk_records_short w s data hne hshort]
        simp
      · rw [chunk_records_long w s data hw (by omega), List.map_cons, List.flatten_cons,
          ih _ _ (by rw [List.length_drop]; omega)]
        exact List.take_append_drop w data

theorem chunk_records_mem (w start : Nat) (data : List Nat) (rec : Record)
    (h : rec ∈ chunk_records w start data) :
    rec.t = Record.DATA ∧ rec.off < 65536 ∧ rec.bytes.length ≤ w
      ∧ ∀ b ∈ rec.bytes, b ∈ data := by
  unfold chunk_records at h
  obtain ⟨k, _, rfl⟩ := List.mem_map.mp h
  refine ⟨rfl, Nat.mod_lt _ (by norm_num), List.length_take_le _ _, fun b hb => ?_⟩
  exact List.mem_of_mem_drop (List.mem_of_mem_take hb)

/-- C13: chunking of the hex dump.  For a width between 1 and 255 the loop
of `dump_ihex` ends, and the records written are the ExtendedLinearAddress
record of the base address followed by `ceil(n / w)` Data records, record
`k` carrying `data[k*w .. min((k+1)*w, n))`; all but the last hold exactly
`w` bytes, the last between 1 and `w`; the payloads concatenated are the
data; and each record is read back from the line written for it, so its
checksum is valid. -/
theorem dump_ihex_chunks (r : Region) (w fuel : Nat) (hw1 : 1 ≤ w) (hw2 : w ≤ 255)
    (hbase : r.base_address < 2 ^ 32) (hbytes : ∀ b ∈ r.data, b < 256)
    (hfuel : 3 * r.data.length ≤ fuel) :
    ∃ datas, r.dump_records w fuel = some (Record.of_address r.base_address :: datas)
      ∧ r.dump_ihex w fuel = some (write_records (Record.of_address r.base_address :: datas))
      ∧ datas.length = (r.data.length + w - 1) / w
      ∧ (∀ k, k < (r.data.length + w - 1) / w →
          (∃ off, datas[k]? = some { off := off, t := Record.DATA,
                                     bytes := (r.data.drop (k * w)).take w })
            ∧ (k + 1 < (r.data.length + w - 1) / w → ((r.data.drop (k * w)).take w).length = w)
            ∧ (k + 1 = (r.data.length + w - 1) / w →
                1 ≤ ((r.data.drop (k * w)).take w).length
                  ∧ ((r.data.drop (k * w)).take w).length ≤ w))
      ∧ (datas.map Record.bytes).flatten = r.data
      ∧ ∀ rec ∈ Record.of_address r.base_address :: datas,
          Record.extract (encode rec) = (.ok rec, [], false) := by
  have hrec := dump_records_eq r w fuel hw1 hbase hfuel
  refine ⟨chunk_records w (r.base_address + r.offset) r.data, hrec, ?_, ?_, ?_, ?_, ?_⟩
  · unfold Region.dump_ihex
    rw [hrec]
    rfl
  · simp [chunk_records]
  · intro k hk
    obtain ⟨hb1, hb2⟩ := chunk_count_bounds r.data.length w k hw1 hk
    refine ⟨⟨_, chunk_records_get w _ r.data k hk⟩, ?_, ?_⟩
    · intro hk2
      have := hb2 hk2
      have h2 : (k + 1) * w = k * w + w := by ring
      rw [List.length_take, List.length_drop]
      omega
    · intro _
      rw [List.length_take, List.length_drop]
      omega
  · exact chunk_records_flatten w hw1 r.data.length r.data _ (le_refl _)
  · intro rec hrec
    rcases List.mem_cons.mp hrec with rfl | hmem
    · apply extract_encode
      · exact Or.inr (Or.inr rfl)
      · show 0 < 65536
        norm_num
      · intro b hb
        simp only [Record.of_address, List.mem_cons, List.mem_singleton, List.not_mem_nil,
          or_false] at hb
        rcases hb with rfl | rfl <;> exact Nat.mod_lt _ (by norm_num)
      · simp [Record.of_address]
    · obtain ⟨h1, h2, h3, h4⟩ := chunk_records_mem w _ r.data rec hmem
      exact extract_encode rec (Or.inl h1) h2 (fun b hb => hbytes b (h4 b hb)) (by omega)

theorem dump_ihex_chunks_witness :
    (Region.dump_records ⟨[1, 2, 3, 4, 5, 6, 7, 8, 9, 10], 0x10000, 0x20, true⟩ 4 30).map
        (List.map Record.size) = some [2, 4, 4, 2]
    ∧ ∃ datas,
      Region.dump_records ⟨[1, 2, 3, 4, 5, 6, 7, 8, 9, 10], 0x10000, 0x20, true⟩ 4 30
          = some (Record.of_address 0x10000 :: datas)
      ∧ Region.dump_ihex ⟨[1, 2, 3, 4, 5, 6, 7, 8, 9, 10], 0x10000, 0x20, true⟩ 4 30
          = some (write_records (Record.of_address 0x10000 :: datas))
      ∧ datas.length = (([1, 2, 3, 4, 5, 6, 7, 8, 9, 10] : List Nat).length + 4 - 1) / 4
      ∧ (∀ k, k < (([1, 2, 3, 4, 5, 6, 7, 8, 9, 10] : List Nat).length + 4 - 1) / 4 →
          (∃ off, datas[k]? = some ⟨off, Record.DATA,
                (([1, 2, 3, 4, 5, 6, 7, 8, 9, 10] : List Nat).drop (k * 4)).take 4⟩)
            ∧ (k + 1 < (([1, 2, 3, 4, 5, 6, 7, 8, 9, 10] : List Nat).length + 4 - 1) / 4 →
                ((([1, 2, 3, 4, 5, 6, 7, 8, 9, 10] : List Nat).drop (k * 4)).take 4).length = 4)
            ∧ (k + 1 = (([1, 2, 3, 4, 5, 6, 7, 8, 9, 10] : List Nat).length + 4 - 1) / 4 →
                1 ≤ ((([1, 2, 3, 4, 5, 6, 7, 8, 9, 10] : List Nat).drop (k * 4)).take 4).length
                  ∧ ((([1, 2, 3, 4, 5, 6, 7, 8, 9, 10] : List Nat).drop (k * 4)).take 4).length
                      ≤ 4))
      ∧ (datas.map Record.bytes).flatten = [1, 2, 3, 4, 5, 6, 7, 8, 9, 10]
      ∧ ∀ rec ∈ Record.of_address 0x10000 :: datas,
          Record.extract (encode rec) = (.ok rec, [], false) :=
  ⟨by decide,
    dump_ihex_chunks ⟨[1, 2, 3, 4, 5, 6, 7, 8, 9, 10], 0x10000, 0x20, true⟩ 4 30 (by decide)
      (by decide) (by decide) (by decide) (by decide)⟩
/-! ## Export as Intel-HEX: record offsets -/

/-- C14, counterexample: the region of two bytes at offset 0xFFFF of base
0, which `read_records` builds from one Data line, is dumped with width 1 as
Data records with offsets 0xFFFF and 0x0000; for the second chunk the
address of the leading record plus the offset is 0, not `address() + 1`. -/
theorem dump_offset_wraps :
    read_records [] ":02FFFF00AABB9B\n:00000001FF\n".toList
        = .ok [⟨[0xAA, 0xBB], 0, 0xFFFF, true⟩]
      ∧ Region.dump_records ⟨[0xAA, 0xBB], 0, 0xFFFF, true⟩ 1 6
          = some [Record.of_address 0, ⟨0xFFFF, Record.DATA, [0xAA]⟩, ⟨0, Record.DATA, [0xBB]⟩]
      ∧ (Record.of_address 0).address + Record.off ⟨0, Record.DATA, [0xBB]⟩
          ≠ Region.address ⟨[0xAA, 0xBB], 0, 0xFFFF, true⟩ + 1 * 1 := by
  decide

/-- C14, amended: for a region whose base address has zero low 16 bits and
whose bytes end within the 64 KiB block of its base address
(`offset + size <= 65536`), for a width of at least 1 and a chunk index `k`,
the address of the leading ExtendedLinearAddress record plus the offset of
the `k`-th Data record is `address() + k * w`. -/
theorem dump_offsets (r : Region) (w fuel k : Nat) (hw : 1 ≤ w)
    (hbase : r.base_address < 2 ^ 32) (hlow : r.base_address % 65536 = 0)
    (hend : r.offset + r.data.length ≤ 65536) (hfuel : 3 * r.data.length ≤ fuel)
    (hk : k < (r.data.length + w - 1) / w) :
    ∃ ela datas rec, r.dump_records w fuel = some (ela :: datas)
      ∧ ela = Record.of_address r.base_address
      ∧ datas[k]? = some rec
      ∧ rec.bytes = (r.data.drop (k * w)).take w
      ∧ ela.address + rec.off = r.address + k * w := by
  obtain ⟨hb1, _⟩ := chunk_count_bounds r.data.length w k hw hk
  refine ⟨_, _, _, dump_records_eq r w fuel hw hbase hfuel, rfl,
    chunk_records_get w _ r.data k hk, rfl, ?_⟩
  simp only [Record.of_address, Record.address, Region.address]
  omega

theorem dump_offsets_witness :
    ∃ ela datas rec,
      Region.dump_records ⟨[1, 2, 3, 4, 5, 6, 7, 8, 9, 10], 0x10000, 0x20, true⟩ 4 30
          = some (ela :: datas)
      ∧ ela = Record.of_address 0x10000
      ∧ datas[2]? = some rec
      ∧ rec.bytes = (([1, 2, 3, 4, 5, 6, 7, 8, 9, 10] : List Nat).drop (2 * 4)).take 4
      ∧ ela.address + rec.off
          = Region.address ⟨[1, 2, 3, 4, 5, 6, 7, 8, 9, 10], 0x10000, 0x20, true⟩ + 2 * 4 :=
  dump_offsets ⟨[1, 2, 3, 4, 5, 6, 7, 8, 9, 10], 0x10000, 0x20, true⟩ 4 30 2 (by decide)
    (by decide) (by decide) (by decide) (by decide) (by decide)
/-! ## Image round trip -/

theorem lines_cons (c : Char) (cs : List Char) :
    lines (c :: cs) =
      if c = '\n' then [] :: lines cs
      else
        match lines cs with
        | [] => [[c]]
        | l :: ls => (c :: l) :: ls := rfl

theorem lines_append_lf (l rest : List Char) (h : ∀ c ∈ l, c ≠ '\n') :
    lines (l ++ '\n' :: rest) = l :: lines rest := by
  induction l with
  | nil => rw [List.nil_append, lines_cons, if_pos rfl]
  | cons c cs ih =>
    have hc : c ≠ '\n' := h c (by simp)
    rw [List.cons_append, lines_cons, if_neg hc, ih (fun x hx => h x (by simp [hx]))]

/-- The text written for records with byte-sized fields and at most 255
payload bytes is one line per record, then the empty rest after the last
line feed. -/
theorem lines_write_records (recs : List Record)
    (h : ∀ rec ∈ recs, rec.t < 256 ∧ rec.off < 65536 ∧ (∀ b ∈ rec.bytes, b < 256)
      ∧ rec.bytes.length ≤ 255) :
    lines (write_records recs) = recs.map encode_line ++ [[]] := by
  induction recs with
  | nil => rfl
  | cons rec rest ih =>
    obtain ⟨h1, h2, h3, h4⟩ := h rec (by simp)
    have e : write_records (rec :: rest) = encode_line rec ++ '\n' :: write_records rest := by
      simp [write_records, encode_eq]
    rw [e, lines_append_lf _ _ (encode_line_no_lf rec h1 h2 h3 h4),
      ih (fun x hx => h x (by simp [hx]))]
    rfl

theorem insert_all_cons (region : Region) (o b : Nat) (bs : List Nat) :
    insert_all region o (b :: bs) =
      match region.insert o b with
      | (_, some e) => .error e
      | (region1, none) => insert_all region1 o bs := rfl

theorem insert_all_set (bs : List Nat) (R : Region) (vo : Nat)
    (hset : R.offset_already_set = true) (h1 : R.offset ≤ vo)
    (h2 : vo ≤ R.offset + R.data.length) :
    insert_all R vo bs = .ok { R with data := R.data ++ bs } := by
  induction bs generalizing R with
  | nil => simp [insert_all]
  | cons b bs ih =>
    have hi : R.insert vo b = ({ R with data := R.data ++ [b] }, none) := by
      unfold Region.insert
      rw [if_pos hset, if_neg (by omega), if_neg (by omega)]
    rw [insert_all_cons, hi]
    simp only []
    rw [ih { R with data := R.data ++ [b] } hset h1
      (by simp only [List.length_append, List.length_singleton]; omega)]
    simp

theorem insert_all_unset (b : Nat) (bs : List Nat) (R : Region) (vo : Nat)
    (hset : R.offset_already_set = false) :
    insert_all R vo (b :: bs)
      = .ok { data := R.data ++ b :: bs, base_address := R.base_address, offset := vo,
              offset_already_set := true } := by
  have hi : R.insert vo b
      = ({ data := R.data ++ [b], base_address := R.base_address, offset := vo,
           offset_already_set := true }, none) := by
    unfold Region.insert
    simp [hset]
  rw [insert_all_cons, hi]
  simp only []
  rw [insert_all_set bs _ vo rfl (le_refl _) (by simp)]
  simp

theorem body_data (s : Loop) (rec : Record) (region : Region)
    (hd : decode (encode_line rec) = .ok rec) (ht : rec.t = Record.DATA)
    (hi : insert_all s.region rec.off rec.bytes = .ok region) :
    body s (encode_line rec) = .next { region := region, data := s.data, line := s.line + 1 } := by
  rw [body_of_ok s _ rec hd, if_pos ht, hi]

theorem run_chunks (w : Nat) (hw1 : 1 ≤ w) (hw2 : w ≤ 255) (base o : Nat) (n : Nat) :
    ∀ (rest : List Nat), rest.length ≤ n → rest ≠ [] → (∀ b ∈ rest, b < 256) →
      ∀ (pre : List Nat) (R : Region), R.data = pre → R.base_address = base →
        (R.offset_already_set = true → R.offset = o) →
        (R.offset_already_set = false → pre = []) →
        o + pre.length + rest.length ≤ 65536 →
        ∀ (start : Nat), start % 65536 = o + pre.length →
        ∀ (data : List Region) (line : Int),
          ∃ line1, run_lines { region := R, data := data, line := line }
              ((chunk_records w start rest).map encode_line)
            = some { region := { data := pre ++ rest, base_address := base, offset := o,
                                 offset_already_set := true },
                     data := data, line := line1 } := by
  induction n with
  | zero =>
    intro rest hlen hne
    exact absurd (List.length_eq_zero.mp (by omega)) hne
  | succ n ih =>
    intro rest hlen hne hbytes pre R hdata hbase hset hunset hend start hstart data line
    have hins : ∀ chunk : List Nat, chunk ≠ [] →
        insert_all R (o + pre.length) chunk
          = .ok { data := pre ++ chunk, base_address := base, offset := o,
                  offset_already_set := true } := by
      intro chunk hc
      cases hflag : R.offset_already_set with
      | true =>
        have ho := hset hflag
        rw [insert_all_set chunk R _ hflag (by omega) (by rw [hdata]; omega)]
        simp only [Except.ok.injEq]
        rw [← hdata, ← hbase, ← ho, ← hflag]
      | false =>
        have hp := hunset hflag
        obtain ⟨b, bs, rfl⟩ := List.exists_cons_of_ne_nil hc
        rw [insert_all_unset b bs R _ hflag, hdata, hbase, hp]
        simp
    by_cases hshort : rest.length ≤ w
    · rw [chunk_records_short w start rest hne hshort]
      have hd : decode (encode_line ⟨start % 65536, Record.DATA, rest⟩)
          = .ok ⟨start % 65536, Record.DATA, rest⟩ :=
        decode_encode_line _ (Or.inl rfl) (Nat.mod_lt _ (by norm_num)) hbytes
          (by simp only []; omega)
      refine ⟨line + 1, ?_⟩
      rw [List.map_cons, List.map_nil, run_lines_cons,
        body_data _ ⟨start % 65536, Record.DATA, rest⟩ _ hd rfl
          (by simp only []; rw [hstart]; exact hins rest hne)]
      rfl
    · have hlong : w < rest.length := by omega
      rw [chunk_records_long w start rest hw1 hlong]
      have htl : (rest.take w).length = w := by rw [List.length_take]; omega
      have htne : rest.take w ≠ [] := by
        intro hnil
        rw [hnil] at htl
        simp only [List.length_nil] at htl
        omega
      have hdl : (rest.drop w).length = rest.length - w := List.length_drop _ _
      have hdne : rest.drop w ≠ [] := by
        intro hnil
        rw [hnil] at hdl
        simp only [List.length_nil] at hdl
        omega
      have hd : decode (encode_line ⟨start % 65536, Record.DATA, rest.take w⟩)
          = .ok ⟨start % 65536, Record.DATA, rest.take w⟩ :=
        decode_encode_line _ (Or.inl rfl) (Nat.mod_lt _ (by norm_num))
          (fun b hb => hbytes b (List.mem_of_mem_take hb)) (by simp only []; omega)
      obtain ⟨line1, hrun⟩ := ih (rest.drop w) (by omega) hdne
        (fun b hb => hbytes b (List.mem_of_mem_drop hb)) (pre ++ rest.take w)
        { data := pre ++ rest.take w, base_address := base, offset := o,
          offset_already_set := true }
        rfl rfl (fun _ => rfl) (fun h => by simp at h)
        (by rw [List.length_append, htl, hdl]; omega) (start + w)
        (by rw [List.length_append, htl]; omega) data (line + 1)
      refine ⟨line1, ?_⟩
      rw [List.map_cons, run_lines_cons,
        body_data _ ⟨start % 65536, Record.DATA, rest.take w⟩ _ hd rfl
          (by simp only []; rw [hstart]; exact hins _ htne)]
      simp only []
      rw [hrun, List.append_assoc, List.take_append_drop]

theorem run_region (w : Nat) (hw1 : 1 ≤ w) (hw2 : w ≤ 255) (r : Region) (hne : r.data ≠ [])
    (hlow : r.base_address % 65536 = 0) (hbase : r.base_address < 2 ^ 32)
    (hend : r.offset + r.data.length ≤ 65536) (hbytes : ∀ b ∈ r.data, b < 256) (s : Loop) :
    ∃ line1, run_lines s ((region_records w r).map encode_line)
      = some { region := { r with offset_already_set := true },
               data := if s.region.size ≠ 0 then s.data ++ [s.region] else s.data,
               line := line1 } := by
  have hela : decode (encode_line (Record.of_address r.base_address))
      = .ok (Record.of_address r.base_address) := by
    apply decode_encode_line
    · exact Or.inr (Or.inr rfl)
    · show 0 < 65536
      norm_num
    · intro b hb
      simp only [Record.of_address, List.mem_cons, List.mem_singleton, List.not_mem_nil,
        or_false] at hb
      rcases hb with rfl | rfl <;> exact Nat.mod_lt _ (by norm_num)
    · simp [Record.of_address]
  have haddr : (Record.of_address r.base_address).address = r.base_address := by
    simp only [Record.of_address, Record.address]
    omega
  have hpos : 0 < r.data.length := List.length_pos.mpr hne
  obtain ⟨line1, hrun⟩ := run_chunks w hw1 hw2 r.base_address r.offset r.data.length r.data
    (le_refl _) hne hbytes [] (Region.init r.base_address) rfl rfl (fun h => by simp [Region.init] at h)
    (fun _ => rfl) (by simpa using hend) (r.base_address + r.offset)
    (by simp only [List.length_nil]; omega)
    (if s.region.size ≠ 0 then s.data ++ [s.region] else s.data) (s.line + 1)
  refine ⟨line1, ?_⟩
  unfold region_records
  rw [List.map_cons, run_lines_cons, body_of_ok s _ _ hela]
  have h1 : ¬ (Record.of_address r.base_address).t = Record.DATA := by
    show ¬ Record.EXT_LIN_ADDRESS = Record.DATA
    decide
  have h2 : ¬ (Record.of_address r.base_address).t = Record.END_OF_FILE := by
    show ¬ Record.EXT_LIN_ADDRESS = Record.END_OF_FILE
    decide
  have h3 : (Record.of_address r.base_address).t = Record.EXT_LIN_ADDRESS := rfl
  rw [if_neg h1, if_neg h2, if_pos h3]
  simp only []
  rw [haddr, hrun]
  rfl
theorem hex_dump_records_eq (w fuel : Nat) (hw : 1 ≤ w) (hex : List Region)
    (hbase : ∀ r ∈ hex, r.base_address < 2 ^ 32)
    (hfuel : ∀ r ∈ hex, 3 * r.data.length ≤ fuel) :
    HexData.dump_records w fuel hex
      = some ((hex.map (region_records w)).flatten ++ [Record.eof]) := by
  induction hex with
  | nil => rfl
  | cons r rs ih =>
    unfold HexData.dump_records
    rw [dump_records_eq r w fuel hw (hbase r (by simp)) (hfuel r (by simp)),
      ih (fun x hx => hbase x (by simp [hx])) (fun x hx => hfuel x (by simp [hx]))]
    simp [region_records]

theorem region_records_good (w : Nat) (hw2 : w ≤ 255) (r : Region)
    (hbytes : ∀ b ∈ r.data, b < 256) :
    ∀ rec ∈ region_records w r, rec.t < 256 ∧ rec.off < 65536 ∧ (∀ b ∈ rec.bytes, b < 256)
      ∧ rec.bytes.length ≤ 255 := by
  intro rec hrec
  rcases List.mem_cons.mp hrec with rfl | hmem
  · refine ⟨by show Record.EXT_LIN_ADDRESS < 256; decide, by show 0 < 65536; norm_num, ?_,
      by simp [Record.of_address]⟩
    intro b hb
    simp only [Record.of_address, List.mem_cons, List.mem_singleton, List.not_mem_nil,
      or_false] at hb
    rcases hb with rfl | rfl <;> exact Nat.mod_lt _ (by norm_num)
  · obtain ⟨h1, h2, h3, h4⟩ := chunk_records_mem w _ r.data rec hmem
    refine ⟨by rw [h1]; decide, h2, fun b hb => hbytes b (h4 b hb), by omega⟩

theorem read_loop_dump (w : Nat) (hw1 : 1 ≤ w) (hw2 : w ≤ 255) (hex : List Region)
    (hgood : ∀ r ∈ hex, r.data ≠ [] ∧ r.base_address % 65536 = 0 ∧ r.base_address < 2 ^ 32
      ∧ r.offset + r.data.length ≤ 65536 ∧ ∀ b ∈ r.data, b < 256)
    (s : Loop) (tail : List (List Char)) :
    read_loop s ((((hex.map (region_records w)).flatten ++ [Record.eof]).map encode_line) ++ tail)
      = .ok ((if s.region.size ≠ 0 then s.data ++ [s.region] else s.data)
          ++ hex.map (fun r => { r with offset_already_set := true })) := by
  induction hex generalizing s with
  | nil =>
    have hd : decode (encode_line Record.eof) = .ok Record.eof := by decide
    have h1 : ¬ Record.eof.t = Record.DATA := by decide
    have h2 : Record.eof.t = Record.END_OF_FILE := rfl
    simp only [List.map_nil, List.flatten_nil, List.nil_append, List.map_cons, List.cons_append,
      List.append_nil]
    rw [read_loop_cons, body_of_ok s _ _ hd, if_neg h1, if_pos h2]
  | cons r rs ih =>
    obtain ⟨hne, hlow, hbase, hend, hbytes⟩ := hgood r (by simp)
    obtain ⟨line1, hrun⟩ := run_region w hw1 hw2 r hne hlow hbase hend hbytes s
    have hsplit : (((r :: rs).map (region_records w)).flatten ++ [Record.eof]).map encode_line
          ++ tail
        = (region_records w r).map encode_line
          ++ ((((rs.map (region_records w)).flatten ++ [Record.eof]).map encode_line) ++ tail) := by
      simp
    rw [hsplit, read_loop_append _ _ s _ hrun, ih (fun x hx => hgood x (by simp [hx]))]
    have hsz : ({ r with offset_already_set := true } : Region).size ≠ 0 := by
      simp only [Region.size]
      exact fun h => hne (List.length_eq_zero.mp h)
    simp only []
    rw [if_pos hsz]
    simp

/-- C19: image round trip.  For an image whose regions are not empty, have
a 32-bit base address with zero low 16 bits, end within the 64 KiB block of
the base address and hold bytes, and for a width between 1 and 255, the hex
dump is produced and assembling its text succeeds with as many regions, in
the same order, each with the same base address, offset, address and
bytes. -/
theorem image_round_trip (hex : List Region) (w fuel : Nat) (hw1 : 1 ≤ w) (hw2 : w ≤ 255)
    (hgood : ∀ r ∈ hex, r.data ≠ [] ∧ r.base_address % 65536 = 0 ∧ r.base_address < 2 ^ 32
      ∧ r.offset + r.data.length ≤ 65536 ∧ ∀ b ∈ r.data, b < 256)
    (hfuel : ∀ r ∈ hex, 3 * r.data.length ≤ fuel) :
    ∃ text img, HexData.dump_ihex hex w fuel = some text
      ∧ read_records [] text = .ok img
      ∧ img.length = hex.length
      ∧ img.map (fun r => (r.base_address, r.offset, r.data))
          = hex.map (fun r => (r.base_address, r.offset, r.data))
      ∧ img.map Region.address = hex.map Region.address := by
  have hrecs := hex_dump_records_eq w fuel hw1 hex (fun r hr => (hgood r hr).2.2.1) hfuel
  have hall : ∀ rec ∈ (hex.map (region_records w)).flatten ++ [Record.eof],
      rec.t < 256 ∧ rec.off < 65536 ∧ (∀ b ∈ rec.bytes, b < 256) ∧ rec.bytes.length ≤ 255 := by
    intro rec hrec
    rcases List.mem_append.mp hrec with h | h
    · obtain ⟨l, hl, hin⟩ := List.mem_flatten.mp h
      obtain ⟨r, hr, rfl⟩ := List.mem_map.mp hl
      exact region_records_good w hw2 r (hgood r hr).2.2.2.2 rec hin
    · rw [List.mem_singleton.mp h]
      decide
  refine ⟨write_records ((hex.map (region_records w)).flatten ++ [Record.eof]),
    hex.map (fun r => { r with offset_already_set := true }), ?_, ?_, ?_, ?_, ?_⟩
  · unfold HexData.dump_ihex
    rw [hrecs]
    rfl
  · unfold read_records
    rw [lines_write_records _ hall, read_loop_dump w hw1 hw2 hex hgood]
    rfl
  · simp
  · rw [List.map_map]
    rfl
  · rw [List.map_map]
    rfl

theorem image_round_trip_witness :
    ∃ text img,
      HexData.dump_ihex [⟨[1, 2, 3, 4, 5, 6, 7, 8, 9, 10], 0x10000, 0x20, true⟩,
          ⟨[1, 2, 3], 0x30000, 0xFFFD, true⟩] 4 30 = some text
      ∧ read_records [] text = .ok img
      ∧ img.length = ([⟨[1, 2, 3, 4, 5, 6, 7, 8, 9, 10], 0x10000, 0x20, true⟩,
          ⟨[1, 2, 3], 0x30000, 0xFFFD, true⟩] : List Region).length
      ∧ img.map (fun r => (r.base_address, r.offset, r.data))
          = ([⟨[1, 2, 3, 4, 5, 6, 7, 8, 9, 10], 0x10000, 0x20, true⟩,
              ⟨[1, 2, 3], 0x30000, 0xFFFD, true⟩] : List Region).map
              (fun r => (r.base_address, r.offset, r.data))
      ∧ img.map Region.address
          = ([⟨[1, 2, 3, 4, 5, 6, 7, 8, 9, 10], 0x10000, 0x20, true⟩,
              ⟨[1, 2, 3], 0x30000, 0xFFFD, true⟩] : List Region).map Region.address :=
  image_round_trip [⟨[1, 2, 3, 4, 5, 6, 7, 8, 9, 10], 0x10000, 0x20, true⟩,
      ⟨[1, 2, 3], 0x30000, 0xFFFD, true⟩] 4 30 (by decide) (by decide) (by decide) (by decide)
/-! ## Termination of the loop of `dump_ihex` -/

theorem dump_loop_step (r : Region) (w fuel : Nat) (s : Dump) :
    Region.dump_loop r w (fuel + 1) s = Region.dump_loop r w fuel (Region.dump_step r w s) := by
  by_cases h : s.i = []
  · have hs : Region.dump_step r w s = s := by
      unfold Region.dump_step
      rw [h]
    rw [hs, dump_loop_nil r w _ s h, dump_loop_nil r w _ s h]
  · exact dump_loop_succ r w fuel s h

theorem dump_step_le (r : Region) (w : Nat) (s : Dump) :
    (Region.dump_step r w s).i.length ≤ s.i.length := by
  obtain ⟨a, st, rec, i, out⟩ := s
  cases i with
  | nil => exact le_refl _
  | cons b rest =>
    cases st with
    | NEW_RECORD => rw [dump_step_new]
    | DATA =>
      by_cases h : rec.size ≥ w
      · rw [dump_step_emit r w a rec b rest out h]
      · rw [dump_step_push r w a rec b rest out (by omega)]
        simp

theorem dump_step_data_lt (r : Region) (w a : Nat) (rec : Record) (i : List Nat)
    (out : List Record) (hi : i ≠ []) (h : rec.size < w) :
    (Region.dump_step r w ⟨a, .DATA, rec, i, out⟩).i.length < i.length := by
  obtain ⟨b, rest, rfl⟩ := List.exists_cons_of_ne_nil hi
  rw [dump_step_push r w a rec b rest out h]
  simp

theorem dump_step_new_lt (r : Region) (w a : Nat) (rec : Record) (i : List Nat)
    (out : List Record) (hi : i ≠ []) (hw : 1 ≤ w) :
    (Region.dump_step r w (Region.dump_step r w ⟨a, .NEW_RECORD, rec, i, out⟩)).i.length
      < i.length := by
  obtain ⟨b, rest, rfl⟩ := List.exists_cons_of_ne_nil hi
  rw [dump_step_new]
  exact dump_step_data_lt r w a _ (b :: rest) out hi
    (by simp only [Record.create_data, Record.of_type, Record.size, List.length_nil]; omega)

theorem dump_three_steps (r : Region) (w : Nat) (hw : 1 ≤ w) (s : Dump) (hi : s.i ≠ []) :
    (Region.dump_step r w (Region.dump_step r w (Region.dump_step r w s))).i.length
      < s.i.length := by
  obtain ⟨a, st, rec, i, out⟩ := s
  cases st with
  | NEW_RECORD =>
    exact lt_of_le_of_lt (dump_step_le r w _) (dump_step_new_lt r w a rec i out hi hw)
  | DATA =>
    by_cases h : rec.size ≥ w
    · obtain ⟨b, rest, rfl⟩ := List.exists_cons_of_ne_nil hi
      rw [dump_step_emit r w a rec b rest out h]
      exact dump_step_new_lt r w a rec (b :: rest) _ hi hw
    · exact lt_of_le_of_lt (dump_step_le r w _)
        (lt_of_le_of_lt (dump_step_le r w _)
          (dump_step_data_lt r w a rec i out hi (by omega)))

theorem dump_loop_ends (r : Region) (w : Nat) (hw : 1 ≤ w) (n : Nat) :
    ∀ (s : Dump), s.i.length ≤ n → ∀ fuel, 3 * n ≤ fuel →
      ∃ recs, Region.dump_loop r w fuel s = some recs := by
  induction n with
  | zero =>
    intro s hs fuel _
    exact ⟨s.os, dump_loop_nil r w fuel s (List.length_eq_zero.mp (by omega))⟩
  | succ n ih =>
    intro s hs fuel hfuel
    by_cases hi : s.i = []
    · exact ⟨s.os, dump_loop_nil r w fuel s hi⟩
    · obtain ⟨f, rfl⟩ : ∃ f, fuel = f + 1 + 1 + 1 := ⟨fuel - 3, by omega⟩
      rw [dump_loop_step, dump_loop_step, dump_loop_step]
      have hlt := dump_three_steps r w hw s hi
      exact ih _ (by omega) f (by omega)

theorem dump_step_zero (r : Region) (s : Dump) : (Region.dump_step r 0 s).i = s.i := by
  obtain ⟨a, st, rec, i, out⟩ := s
  cases i with
  | nil => rfl
  | cons b rest =>
    cases st with
    | NEW_RECORD => rw [dump_step_new]
    | DATA => rw [dump_step_emit r 0 a rec b rest out (Nat.zero_le _)]

theorem dump_loop_zero (r : Region) (fuel : Nat) :
    ∀ (s : Dump), s.i ≠ [] → Region.dump_loop r 0 fuel s = none := by
  induction fuel with
  | zero =>
    intro s hi
    simp [Region.dump_loop, hi]
  | succ fuel ih =>
    intro s hi
    rw [dump_loop_step]
    exact ih _ (by rw [dump_step_zero]; exact hi)

/-- C21: termination of `dump_ihex`.  An iteration in state NEW_RECORD
consumes no byte and leads to state DATA.  For a width of at least 1 any
three consecutive iterations consume at least one byte, and the loop ends
within three iterations per byte of the region, whatever the bound given
beyond that.  For width 0 no iteration consumes a byte and, on a region that
is not empty, the loop has not ended after any number of iterations. -/
theorem dump_ihex_termination (r : Region) (w : Nat) :
    (∀ a rec b rest out,
        Region.dump_step r w ⟨a, .NEW_RECORD, rec, b :: rest, out⟩
          = ⟨a, .DATA, Record.create_data ((a + r.offset) % 2 ^ 32), b :: rest, out⟩)
      ∧ (1 ≤ w → ∀ s : Dump, s.i ≠ [] →
          (Region.dump_step r w (Region.dump_step r w (Region.dump_step r w s))).i.length
            < s.i.length)
      ∧ (1 ≤ w → ∀ fuel, 3 * r.data.length ≤ fuel →
          (∃ recs, r.dump_records w fuel = some recs)
            ∧ ∃ text, r.dump_ihex w fuel = some text)
      ∧ (∀ s : Dump, (Region.dump_step r 0 s).i = s.i)
      ∧ (r.data ≠ [] → ∀ fuel, r.dump_records 0 fuel = none ∧ r.dump_ihex 0 fuel = none) := by
  refine ⟨fun a rec b rest out => rfl, fun hw s hi => dump_three_steps r w hw s hi, ?_,
    dump_step_zero r, ?_⟩
  · intro hw fuel hfuel
    obtain ⟨recs, hrecs⟩ := dump_loop_ends r w hw r.data.length
      { address := r.base_address, state := .NEW_RECORD,
        record := Record.of_type Record.END_OF_FILE, i := r.data,
        os := [Record.of_address r.base_address] } (le_refl _) fuel hfuel
    refine ⟨⟨recs, hrecs⟩, ⟨write_records recs, ?_⟩⟩
    unfold Region.dump_ihex
    rw [show r.dump_records w fuel = some recs from hrecs]
    rfl
  · intro hne fuel
    have h0 : r.dump_records 0 fuel = none := dump_loop_zero r fuel _ hne
    refine ⟨h0, ?_⟩
    unfold Region.dump_ihex
    rw [h0]
    rfl
/-! ## Hex field decoding -/

theorem h2b_upper : ∀ d, d < 16 → ∀ c, "0123456789ABCDEF".toList[d]? = some c → h2b c = d := by
  decide

theorem h2b_lower : ∀ d, d < 16 → ∀ c, "0123456789abcdef".toList[d]? = some c → h2b c = d := by
  decide

theorem char_of_code (c : Char) (lo hi : Nat) (h1 : lo ≤ c.toNat) (h2 : c.toNat ≤ hi) :
    c ∈ (List.range' lo (hi + 1 - lo)).map Char.ofNat := by
  rw [List.mem_map]
  refine ⟨c.toNat, ?_, Char.ofNat_toNat c⟩
  rw [List.mem_range'_1]
  omega

theorem h2b_other (c : Char) (h : c ∉ "0123456789ABCDEFabcdef".toList) : h2b c = 0 := by
  have hdigits : ( List.range' '0'.toNat ('9'.toNat + 1 - '0'.toNat)).map Char.ofNat
      = "0123456789".toList := by decide
  have hupper : ( List.range' 'A'.toNat ('F'.toNat + 1 - 'A'.toNat)).map Char.ofNat
      = "ABCDEF".toList := by decide
  have hlower : ( List.range' 'a'.toNat ('f'.toNat + 1 - 'a'.toNat)).map Char.ofNat
      = "abcdef".toList := by decide
  have hall : "0123456789ABCDEFabcdef".toList
      = "0123456789".toList ++ ("ABCDEF".toList ++ "abcdef".toList) := by decide
  rw [hall, List.mem_append, List.mem_append] at h
  unfold h2b
  split
  · rename_i hr
    exact absurd (Or.inl (hdigits ▸ char_of_code c _ _ hr.1 hr.2)) h
  · split
    · rename_i hr
      exact absurd (Or.inr (Or.inl (hupper ▸ char_of_code c _ _ hr.1 hr.2))) h
    · split
      · rename_i hr
        exact absurd (Or.inr (Or.inr (hlower ▸ char_of_code c _ _ hr.1 hr.2))) h
      · rfl

theorem read_u8_of_chars (s s1 s2 : List Char) (c1 c2 : Char)
    (h1 : get_char s = some (c1, s1)) (h2 : get_char s1 = some (c2, s2)) :
    read_u8 s = some (16 * h2b c1 + h2b c2, s2) := by
  unfold read_u8
  rw [h1]
  simp only []
  rw [h2]
  simp only [Option.some.injEq, Prod.mk.injEq, and_true]
  have := h2b_le c1
  have := h2b_le c2
  omega

/-- C22: hex field decoding.  `h2b` gives a hex digit its value, the same
for upper and lower case, and 0 to every other character; a byte field read
from the characters `c1 c2` is `16 * h2b c1 + h2b c2`, and a 16-bit field
read from four characters is the byte of the first two times 256 plus the
byte of the last two.  The characters of a field are those the formatted
extraction delivers one after the other. -/
theorem hex_field_decoding (s s1 s2 s3 s4 : List Char) (c1 c2 c3 c4 : Char)
    (h1 : get_char s = some (c1, s1)) (h2 : get_char s1 = some (c2, s2))
    (h3 : get_char s2 = some (c3, s3)) (h4 : get_char s3 = some (c4, s4)) :
    (∀ d c, "0123456789ABCDEF".toList[d]? = some c → h2b c = d)
      ∧ (∀ d c, "0123456789abcdef".toList[d]? = some c → h2b c = d)
      ∧ (∀ c, c ∉ "0123456789ABCDEFabcdef".toList → h2b c = 0)
      ∧ (∀ c, h2b c ≤ 15)
      ∧ read_u8 s = some (16 * h2b c1 + h2b c2, s2)
      ∧ read_u8 s2 = some (16 * h2b c3 + h2b c4, s4)
      ∧ read_u16 s = some ((16 * h2b c1 + h2b c2) * 256 + (16 * h2b c3 + h2b c4), s4) := by
  have hb1 := read_u8_of_chars s s1 s2 c1 c2 h1 h2
  have hb2 := read_u8_of_chars s2 s3 s4 c3 c4 h3 h4
  refine ⟨?_, ?_, h2b_other, h2b_le, hb1, hb2, ?_⟩
  · intro d c hd
    have hlt : d < 16 := by
      by_contra hge
      rw [List.getElem?_eq_none (by simp only [String.toList]; exact Nat.le_of_not_lt hge)] at hd
      simp at hd
    exact h2b_upper d hlt c hd
  · intro d c hd
    have hlt : d < 16 := by
      by_contra hge
      rw [List.getElem?_eq_none (by simp only [String.toList]; exact Nat.le_of_not_lt hge)] at hd
      simp at hd
    exact h2b_lower d hlt c hd
  · unfold read_u16
    rw [hb1]
    simp only []
    rw [hb2]
    simp only [Option.some.injEq, Prod.mk.injEq, and_true]
    have := h2b_le c1
    have := h2b_le c2
    have := h2b_le c3
    have := h2b_le c4
    omega

theorem hex_field_decoding_witness :
    (∀ d c, "0123456789ABCDEF".toList[d]? = some c → h2b c = d)
      ∧ (∀ d c, "0123456789abcdef".toList[d]? = some c → h2b c = d)
      ∧ (∀ c, c ∉ "0123456789ABCDEFabcdef".toList → h2b c = 0)
      ∧ (∀ c, h2b c ≤ 15)
      ∧ read_u8 "1fXa".toList = some (16 * h2b '1' + h2b 'f', "Xa".toList)
      ∧ read_u8 "Xa".toList = some (16 * h2b 'X' + h2b 'a', [])
      ∧ read_u16 "1fXa".toList
          = some ((16 * h2b '1' + h2b 'f') * 256 + (16 * h2b 'X' + h2b 'a'), []) :=
  hex_field_decoding "1fXa".toList "fXa".toList "Xa".toList "a".toList [] '1' 'f' 'X' 'a'
    (by decide) (by decide) (by decide) (by decide)

theorem read_u8_skips_whitespace :
    read_u8 " 1\t2 rest".toList = some (0x12, " rest".toList) := by
  decide

end Ihex
